import Mathlib

/-!
Verification development for the MLC LLM serving-engine orchestration layer
(`python/mlc_chat/serve/engine.py`, class `Engine`, method `Engine.generate`).

The Python source under verification is shallowly embedded below:

* `StopStringHandler` and the incremental detokenizer (`TextStreamer`) are
  imported by `engine.py` from `mlc_chat.streamer`, whose source is not part
  of the verified tree; both are modelled from the specification (see the
  doc comments on `StopStringHandler.put`, `StopStringHandler.finish` and
  `reqStep`).
* `Engine.generate` itself (prompt promotion, config broadcast and length
  assertion, the batch-scoped `request_stream_callback`, the
  `add_request`/`step` driving loop, and the callback save/restore protocol)
  is translated line by line from `engine.py`.

Text is modelled as `List Char`; token ids as `Nat`; the opaque
token-to-text decoding of the tokenizer is a parameter `tokStr`.
-/

abbrev Txt := List Char

/-- `matchesAt S t k` holds when some non-empty stop string of `S` occurs in
`t` as a contiguous substring starting at offset `k` (fully contained in
`t`).  Empty stop strings are ignored: a "first occurrence" of the empty
string is degenerate and the matcher treats it as never matching. -/
def matchesAt (S : List Txt) (t : Txt) (k : Nat) : Bool :=
  S.any fun s => !s.isEmpty && ((t.drop k).take s.length == s)

/-- Scan offsets `k, k+1, ...` (at most `fuel` of them) for the first offset
where a stop string occurs. -/
def foFrom (S : List Txt) (t : Txt) : Nat → Nat → Option Nat
  | _, 0 => none
  | k, fuel + 1 => if matchesAt S t k then some k else foFrom S t (k + 1) fuel

/-- Offset of the first (earliest-starting) occurrence of any stop string of
`S` inside `t`, or `none` if no stop string occurs in `t`. -/
def firstOccur (S : List Txt) (t : Txt) : Option Nat :=
  foFrom S t 0 (t.length + 1)

/-- `u` is a proper initial segment of some stop string in `S` (so more text
could still complete that stop string). -/
def properPreOfSome (S : List Txt) (u : Txt) : Bool :=
  S.any fun s => u.length < s.length && (s.take u.length == u)

/-- Search `L, L-1, ..., 1` for the longest suffix length `L` of `b` such
that the length-`L` suffix of `b` is a proper initial segment of some stop
string; `0` if there is none. -/
def hbAux (S : List Txt) (b : Txt) : Nat → Nat
  | 0 => 0
  | L + 1 =>
    if properPreOfSome S (b.drop (b.length - (L + 1))) then L + 1
    else hbAux S b L

/-- Length of the longest suffix of `b` that is a proper initial segment of
some stop string of `S`: the part of `b` that the matcher cannot yet decide
and must withhold. -/
def holdback (S : List Txt) (b : Txt) : Nat :=
  hbAux S b b.length

/-- Modelled from the spec: the `StopStringHandler` of `mlc_chat.streamer`
(imported by `engine.py`, source not in the verified tree), following
spec §4.2: a per-request matcher configured with a set of stop strings,
holding a withheld buffer `pending` and a monotone `stop_triggered` flag. -/
structure StopStringHandler where
  stop_strs : List Txt
  pending : Txt
  stop_triggered : Bool
deriving DecidableEq, Repr

/-- Modelled from the spec (§4.2): `put` appends `text` to the withheld
buffer; if any configured stop string is found as a completed substring of
the buffer, it sets `stop_triggered`, returns only the text preceding the
first (earliest-starting) such occurrence and discards the rest; otherwise
it withholds the longest buffer suffix that is a proper initial segment of
some stop string and returns the preceding safe text.  After triggering,
every further `put` returns empty. -/
def StopStringHandler.put (h : StopStringHandler) (text : Txt) :
    Txt × StopStringHandler :=
  if h.stop_triggered then ([], h)
  else
    let b := h.pending ++ text
    match firstOccur h.stop_strs b with
    | some k => (b.take k, { h with pending := [], stop_triggered := true })
    | none =>
      let w := holdback h.stop_strs b
      (b.take (b.length - w), { h with pending := b.drop (b.length - w) })

/-- Modelled from the spec (§4.2): `finish` flushes the withheld buffer if
the matcher never triggered (no more text is coming, so a partial match can
never complete), and returns empty if it triggered. -/
def StopStringHandler.finish (h : StopStringHandler) :
    Txt × StopStringHandler :=
  if h.stop_triggered then ([], h) else (h.pending, { h with pending := [] })

/-- Fresh matcher for one request, as built at batch entry
(`engine.py` line 270: `StopStringHandler(generation_config[i].stop_strs)`). -/
def StopStringHandler.init (S : List Txt) : StopStringHandler :=
  ⟨S, [], false⟩

example :
    (StopStringHandler.put (.init [['!']]) ['H', 'i', '!', '!']).1
      = ['H', 'i'] := by decide

example :
    ((StopStringHandler.init [['a', 'b']]).put ['x', 'a']).1 = ['x'] := by
  decide

example :
    (((StopStringHandler.init [['a', 'b']]).put ['x', 'a']).2.put ['b']).1
      = [] := by decide

example :
    (((StopStringHandler.init [['a', 'b']]).put
        ['x', 'a']).2.put ['b']).2.stop_triggered = true := by decide

/-! ## The engine model: events, per-request state, the batch callback -/

/-- Finish reason recorded for a request: either the forced client-side
`"stop"` (engine.py lines 288/292) or the engine's own opaque reason tag
(delivered through the stream event). -/
inductive FReason
  | stop
  | engine (tag : Nat)
deriving DecidableEq, Repr

/-- One stream event `(request_id, delta_tokens, finish_reason)` as unpacked
by the callback (engine.py line 281).  `rid` is an `Int` because
`int(request_id)` may be negative and Python list subscripts accept
negative indices. -/
structure StreamEvent where
  rid : Int
  toks : List Nat
  reason : Option Nat
deriving DecidableEq, Repr

/-- Faults raised inside `generate`:
`indexError` — a list subscript out of range (out-of-range event id);
`streamerReuse` — `TextStreamer.put` after `finish()` (spec §4.1 calls this
a fatal programming error);
`configMismatch` — the `assert len(generation_config) == num_requests`
failure (engine.py lines 259-261). -/
inductive Fault
  | indexError
  | streamerReuse
  | configMismatch
deriving DecidableEq, Repr

/-- Decoded text of a token-id sequence: the tokenizer is opaque, modelled
by the parameter `tokStr` giving each token's text.  This is the
spec-modelled `TextStreamer` decode (spec §4.1): the streamer's emitted
deltas concatenate to the decode of the full token sequence; this model
emits every delta immediately, never withholding. -/
def decodeToks (tokStr : Nat → Txt) (ts : List Nat) : Txt :=
  (ts.map tokStr).flatten

/-- Per-request state of the batch callback (engine.py lines 263-270):
the request's `TextStreamer` (modelled from the spec by its token history
`hist` and its `closed` flag, set by `finish()`), its `StopStringHandler`,
its accumulated output string, and the ghost record of the finish reason
computed at line 297 when it was non-null. -/
structure ReqState where
  hist : List Nat
  closed : Bool
  handler : StopStringHandler
  output : Txt
  finishReason : Option FReason
deriving DecidableEq, Repr

/-- Default element for `List.getD` on request-state vectors. -/
def dfltReq : ReqState :=
  { hist := [], closed := false, handler := .init [], output := [],
    finishReason := none }

/-- Processing of a single stream event for the request it targets:
the loop body of `request_stream_callback` (engine.py lines 280-298) minus
the id dispatch.  Returns the updated request state together with the value
of the local `finish_reason` at line 297 (`some` means
`num_finished_requests` is incremented).  The `TextStreamer` part is
modelled from the spec (§4.1): `put` on a closed streamer is a fatal
fault, `finish()` closes the streamer, and deltas decode through
`decodeToks` with nothing withheld (so `finish()` flushes nothing). -/
def reqStep (tokStr : Nat → Txt) (st : ReqState) (e : StreamEvent) :
    Except Fault (ReqState × Option FReason) :=
  if st.closed then .error .streamerReuse
  else
    let d := decodeToks tokStr e.toks
    let po := st.handler.put d
    let hist' := st.hist ++ e.toks
    if po.2.stop_triggered then
      .ok ({ hist := hist', closed := st.closed, handler := po.2,
             output := st.output ++ po.1, finishReason := some .stop },
           some .stop)
    else
      match e.reason with
      | some r =>
        let po2 := po.2.put []
        if po2.2.stop_triggered then
          .ok ({ hist := hist', closed := true, handler := po2.2,
                 output := st.output ++ po.1 ++ po2.1,
                 finishReason := some .stop },
               some .stop)
        else
          let fo := po2.2.finish
          .ok ({ hist := hist', closed := true, handler := fo.2,
                 output := st.output ++ po.1 ++ po2.1 ++ fo.1,
                 finishReason := some (.engine r) },
               some (.engine r))
      | none =>
        .ok ({ hist := hist', closed := st.closed, handler := po.2,
               output := st.output ++ po.1, finishReason := st.finishReason },
             none)

/-- Python list-subscript semantics for `text_streamers[rid]` (engine.py
line 283) on a list of length `n`: indices `0 ≤ i < n` are direct,
`-n ≤ i < 0` address element `n + i`, anything else raises `IndexError`. -/
def pyIndex (n : Nat) (i : Int) : Option Nat :=
  if 0 ≤ i ∧ i < (n : Int) then some i.toNat
  else if -(n : Int) ≤ i ∧ i < 0 then some ((n : Int) + i).toNat
  else none

/-- One iteration of the `for delta_output in delta_outputs` loop: dispatch
the event by request id (Python subscripting), run `reqStep`, store the
updated state and bump `num_finished_requests` when the computed finish
reason is non-null. -/
def processEvent (tokStr : Nat → Txt) (sc : List ReqState × Nat)
    (e : StreamEvent) : Except Fault (List ReqState × Nat) :=
  match pyIndex sc.1.length e.rid with
  | none => .error .indexError
  | some i =>
    match reqStep tokStr (sc.1.getD i dfltReq) e with
    | .error f => .error f
    | .ok (st', fr) =>
      .ok (sc.1.set i st', sc.2 + (if fr.isSome then 1 else 0))

/-- One full callback delivery: `request_stream_callback(delta_outputs)`
(engine.py lines 278-298), processing the events in order. -/
def processEvents (tokStr : Nat → Txt) :
    List ReqState → Nat → List StreamEvent →
    Except Fault (List ReqState × Nat)
  | states, count, [] => .ok (states, count)
  | states, count, e :: rest =>
    match processEvent tokStr (states, count) e with
    | .error f => .error f
    | .ok (s', c') => processEvents tokStr s' c' rest

/-- Outcome of the driving loop (engine.py lines 318-319): finished with
final states, final count and the number of `step()` calls; faulted during
some `step()`'s callback delivery; or the trace of engine deliveries ran
out with the loop still spinning (the unbounded-wait path of spec §5). -/
inductive LoopRes
  | finished (states : List ReqState) (count : Nat) (steps : Nat)
  | faulted (f : Fault) (steps : Nat)
  | hung
deriving DecidableEq, Repr

/-- Add one `step()` call to a loop outcome's accounting. -/
def LoopRes.bump : LoopRes → LoopRes
  | .finished s c k => .finished s c (k + 1)
  | .faulted f k => .faulted f (k + 1)
  | .hung => .hung

/-- The driving loop `while num_finished_requests != num_requests:
self.step()` (engine.py lines 318-319).  The engine is opaque: the events
each `step()` delivers to the installed callback are given by `trace`, one
delivery list per step. -/
def runLoop (tokStr : Nat → Txt) (n : Nat) :
    List ReqState → Nat → List (List StreamEvent) → LoopRes
  | states, count, trace =>
    if count = n then .finished states count 0
    else
      match trace with
      | [] => .hung
      | d :: rest =>
        match processEvents tokStr states count d with
        | .error f => .faulted f 1
        | .ok (s', c') => (runLoop tokStr n s' c' rest).bump

/-! ## Prompts, configs and the `generate` entry point -/

/-- Generation config: the stop strings consumed by this layer plus an
opaque tag standing for the sampling parameters. -/
structure GenerationConfig where
  stop_strs : List Txt
  tag : Nat
deriving DecidableEq, Repr

/-- A promoted prompt as submitted to `add_request`: `data.TextData` for a
string prompt, `data.TokenData` for a pre-tokenized prompt (engine.py
lines 305-309). -/
inductive Prompt
  | text (s : Txt)
  | tokens (ts : List Nat)
deriving DecidableEq, Repr

/-- An element of a prompt list before promotion: Python `isinstance`
dispatch distinguishes ints, strings and token-id lists. -/
inductive PromptElem
  | pint (n : Nat)
  | pstr (s : Txt)
  | ptoks (ts : List Nat)
deriving DecidableEq, Repr

/-- The `prompts` argument of `generate`: a single bare string or a list
(of strings, of token ids, or of token-id lists). -/
inductive PromptsArg
  | str (s : Txt)
  | ofList (l : List PromptElem)
deriving DecidableEq, Repr

/-- The `generation_config` argument: one shared config or one per prompt. -/
inductive ConfigArg
  | one (g : GenerationConfig)
  | many (gs : List GenerationConfig)
deriving DecidableEq, Repr

/-- Value held by the engine's single request-stream-callback slot
(read and written through `get_request_stream_callback` /
`set_request_stream_callback`, modelled from the spec §6): either some
callback installed from outside this `generate` call, or the batch-scoped
closure `generate` installs.  The Python closure is a fresh object, hence
never identical to a previously installed callback. -/
inductive CbSlot
  | outer (v : Nat)
  | batchScoped
deriving DecidableEq, Repr

/-- The engine interactions `generate` performs, in order (modelled from
the spec §6 contract of the opaque native collaborator). -/
inductive EngineOp
  | getCb
  | setCb (v : CbSlot)
  | addReq (rid : Nat) (p : Prompt) (g : GenerationConfig)
  | stepOp
deriving DecidableEq, Repr

/-- Token id of a list element, for the head-is-int promotion branch. -/
def elemTok : PromptElem → Option Nat
  | .pint n => some n
  | _ => none

/-- Per-element conversion to request input data (engine.py lines 305-309);
the `pint` case cannot arise from a well-typed prompt list whose head is
not an int. -/
def elemPrompt : PromptElem → Prompt
  | .pstr s => .text s
  | .ptoks ts => .tokens ts
  | .pint n => .tokens [n]

/-- Prompt promotion (engine.py lines 241-253): a bare string becomes a
one-element batch; an empty list stays empty (drives the early return); a
list whose first element is an int is a single pre-tokenized prompt and is
wrapped whole; otherwise each element is one prompt. -/
def promote : PromptsArg → List Prompt
  | .str s => [.text s]
  | .ofList [] => []
  | .ofList (e :: es) =>
    match e with
    | .pint _ => [.tokens ((e :: es).filterMap elemTok)]
    | _ => (e :: es).map elemPrompt

/-- Config broadcast (engine.py lines 256-257): a single config is shared
by all `n` prompts; a list is used as is. -/
def broadcast (cfg : ConfigArg) (n : Nat) : List GenerationConfig :=
  match cfg with
  | .one g => List.replicate n g
  | .many l => l

/-- Fresh per-request state at batch entry (engine.py lines 267-270). -/
def initReq (g : GenerationConfig) : ReqState :=
  { hist := [], closed := false, handler := .init g.stop_strs, output := [],
    finishReason := none }

/-- The `add_request` calls issued for the batch, in submission order
0..N-1 (engine.py lines 304-316). -/
def addOps (ps : List Prompt) (gs : List GenerationConfig) : List EngineOp :=
  (ps.zip gs).enum.map fun x => .addReq x.1 x.2.1 x.2.2

/-- Outcome of one `Engine.generate` call: normal return with the result
list, the callback-slot value after the call, the engine-operation log, the
final request states and the number of steps; or a raised fault (with the
slot value at the moment the fault propagates out); or divergence of the
driving loop (trace exhausted with unfinished requests). -/
inductive GenOutcome
  | ok (results : List Txt) (slot : CbSlot) (ops : List EngineOp)
       (states : List ReqState) (steps : Nat)
  | fault (f : Fault) (slot : CbSlot) (ops : List EngineOp)
  | hung (slot : CbSlot) (ops : List EngineOp)
deriving DecidableEq, Repr

/-- `Engine.generate` (engine.py lines 213-323), shallowly embedded.
`tokStr` is the opaque tokenizer; `c₀` the callback installed on the engine
before the call; `trace` the per-step callback deliveries the opaque engine
produces.  No `try/finally` protects the callback restore at line 322: a
fault propagating from a callback delivery leaves the batch-scoped callback
installed. -/
def Engine.generate (tokStr : Nat → Txt) (c₀ : CbSlot)
    (prompts : PromptsArg) (cfg : ConfigArg)
    (trace : List (List StreamEvent)) : GenOutcome :=
  match promote prompts with
  | [] => .ok [] c₀ [] [] 0
  | p :: ps =>
    let pl := p :: ps
    let n := pl.length
    let gs := broadcast cfg n
    if gs.length ≠ n then .fault .configMismatch c₀ []
    else
      let states₀ := gs.map initReq
      let pre : List EngineOp :=
        .getCb :: .setCb .batchScoped :: addOps pl gs
      match runLoop tokStr n states₀ 0 trace with
      | .finished s _ k =>
        .ok (s.map ReqState.output) c₀
          (pre ++ List.replicate k .stepOp ++ [.setCb c₀]) s k
      | .faulted f k =>
        .fault f .batchScoped (pre ++ List.replicate k .stepOp)
      | .hung => .hung .batchScoped pre

/-! ## Basic facts about occurrences and the holdback computation -/

theorem take_append_of_le {α : Type} {n : Nat} {l u : List α} (h : n ≤ l.length) :
    (l ++ u).take n = l.take n := by
  rw [List.take_append_eq_append_take, Nat.sub_eq_zero_of_le h,
    List.take_zero, List.append_nil]

theorem drop_append_of_le {α : Type} {n : Nat} {l u : List α} (h : n ≤ l.length) :
    (l ++ u).drop n = l.drop n ++ u := by
  rw [List.drop_append_eq_append_drop, Nat.sub_eq_zero_of_le h, List.drop_zero]

theorem take_append_add {α : Type} (l u : List α) (n : Nat) :
    (l ++ u).take (l.length + n) = l ++ u.take n := by
  rw [List.take_append_eq_append_take, Nat.add_sub_cancel_left,
    List.take_of_length_le (Nat.le_add_right _ _)]

theorem drop_append_add {α : Type} (l u : List α) (n : Nat) :
    (l ++ u).drop (l.length + n) = u.drop n := by
  rw [List.drop_append_eq_append_drop, Nat.add_sub_cancel_left,
    List.drop_eq_nil_of_le (Nat.le_add_right _ _), List.nil_append]

theorem matchesAt_iff {S : List Txt} {t : Txt} {k : Nat} :
    matchesAt S t k = true ↔
      ∃ s ∈ S, s ≠ [] ∧ (t.drop k).take s.length = s := by
  simp [matchesAt, List.any_eq_true, Bool.and_eq_true, List.isEmpty_iff]

/-- An occurrence needs `s.length` characters available after `k`. -/
theorem len_le_of_occ {t s : Txt} {k : Nat} (hne : s ≠ [])
    (heq : (t.drop k).take s.length = s) : k + s.length ≤ t.length := by
  have hlen := congrArg List.length heq
  simp [List.length_take, List.length_drop] at hlen
  have hpos : 0 < s.length := List.length_pos.2 hne
  omega

theorem matchesAt_lt_length {S : List Txt} {t : Txt} {k : Nat}
    (h : matchesAt S t k = true) : k < t.length := by
  rcases matchesAt_iff.1 h with ⟨s, _, hne, heq⟩
  have := len_le_of_occ hne heq
  have hpos : 0 < s.length := List.length_pos.2 hne
  omega

theorem matchesAt_of_ge {S : List Txt} {t : Txt} {k : Nat}
    (h : t.length ≤ k) : matchesAt S t k = false := by
  by_contra hc
  have := matchesAt_lt_length (Bool.of_not_eq_false hc)
  omega

/-- An occurrence survives appending more text on the right. -/
theorem matchesAt_mono_right {S : List Txt} {t u : Txt} {k : Nat}
    (h : matchesAt S t k = true) : matchesAt S (t ++ u) k = true := by
  rcases matchesAt_iff.1 h with ⟨s, hs, hne, heq⟩
  refine matchesAt_iff.2 ⟨s, hs, hne, ?_⟩
  have hk : k ≤ t.length := Nat.le_of_lt (matchesAt_lt_length h)
  have hsl : s.length ≤ (t.drop k).length := by
    have := len_le_of_occ hne heq
    simp [List.length_drop]
    omega
  rw [drop_append_of_le hk, take_append_of_le hsl, heq]

/-- Occurrences inside a right-appended window shift by the left length. -/
theorem matchesAt_shift (S : List Txt) (E b : Txt) (j : Nat) :
    matchesAt S (E ++ b) (E.length + j) = matchesAt S b j := by
  unfold matchesAt
  rw [drop_append_add]

/-- An occurrence of `s` at `m` in `t ++ c` that fits inside `t` is an
occurrence in `t`. -/
theorem occ_front {t c s : Txt} {m : Nat}
    (heq : ((t ++ c).drop m).take s.length = s)
    (hfit : m + s.length ≤ t.length) : (t.drop m).take s.length = s := by
  have hm : m ≤ t.length := by omega
  rw [drop_append_of_le hm] at heq
  have hsl : s.length ≤ (t.drop m).length := by
    simp [List.length_drop]; omega
  rw [take_append_of_le hsl] at heq
  exact heq

/-- An occurrence of `s` at `m` in `t ++ c` that begins inside `t` but does
not fit inside `t` makes the suffix `t.drop m` a proper initial segment of
`s`. -/
theorem occ_boundary {t c s : Txt} {m : Nat}
    (heq : ((t ++ c).drop m).take s.length = s)
    (hm : m < t.length) (hout : t.length < m + s.length) :
    t.drop m = s.take (t.length - m) ∧ t.length - m < s.length := by
  have hmle : m ≤ t.length := Nat.le_of_lt hm
  rw [drop_append_of_le hmle] at heq
  constructor
  · have h1 : s.take (t.length - m) = ((t.drop m ++ c).take s.length).take (t.length - m) := by
      rw [heq]
    rw [List.take_take, Nat.min_eq_left (by omega)] at h1
    have h2 : (t.drop m ++ c).take (t.length - m) = t.drop m := by
      have : t.length - m = (t.drop m).length := by simp [List.length_drop]
      rw [this, take_append_of_le (Nat.le_refl _), List.take_length]
    rw [h2] at h1
    exact h1.symm
  · omega

theorem properPreOfSome_iff {S : List Txt} {u : Txt} :
    properPreOfSome S u = true ↔
      ∃ s ∈ S, u.length < s.length ∧ s.take u.length = u := by
  simp [properPreOfSome, List.any_eq_true, Bool.and_eq_true]

/-! ### `foFrom` / `firstOccur` -/

theorem foFrom_some {S : List Txt} {t : Txt} :
    ∀ fuel k j, foFrom S t k fuel = some j →
      matchesAt S t j = true ∧ k ≤ j ∧
        ∀ i, k ≤ i → i < j → matchesAt S t i = false := by
  intro fuel
  induction fuel with
  | zero => intro k j h; simp [foFrom] at h
  | succ fuel ih =>
    intro k j h
    by_cases hk : matchesAt S t k = true
    · simp [foFrom, hk] at h
      subst h
      exact ⟨hk, Nat.le_refl _, fun i h1 h2 => absurd h1 (Nat.not_le_of_lt h2)⟩
    · simp [foFrom, hk] at h
      rcases ih (k + 1) j h with ⟨h1, h2, h3⟩
      refine ⟨h1, by omega, fun i hi1 hi2 => ?_⟩
      by_cases hik : i = k
      · subst hik; exact Bool.eq_false_iff.2 hk
      · exact h3 i (by omega) hi2

theorem foFrom_none {S : List Txt} {t : Txt} :
    ∀ fuel k, foFrom S t k fuel = none →
      ∀ i, k ≤ i → i < k + fuel → matchesAt S t i = false := by
  intro fuel
  induction fuel with
  | zero => intro k _ i h1 h2; omega
  | succ fuel ih =>
    intro k h i h1 h2
    by_cases hk : matchesAt S t k = true
    · simp [foFrom, hk] at h
    · simp [foFrom, hk] at h
      by_cases hik : i = k
      · subst hik; exact Bool.eq_false_iff.2 hk
      · exact ih (k + 1) h i (by omega) (by omega)

theorem firstOccur_some {S : List Txt} {t : Txt} {k : Nat}
    (h : firstOccur S t = some k) :
    matchesAt S t k = true ∧ ∀ j, j < k → matchesAt S t j = false := by
  rcases foFrom_some _ 0 k h with ⟨h1, _, h3⟩
  exact ⟨h1, fun j hj => h3 j (Nat.zero_le _) hj⟩

theorem firstOccur_none {S : List Txt} {t : Txt}
    (h : firstOccur S t = none) : ∀ k, matchesAt S t k = false := by
  intro k
  by_cases hk : k < t.length + 1
  · exact foFrom_none _ 0 h k (Nat.zero_le _) (by omega)
  · exact matchesAt_of_ge (by omega)

theorem firstOccur_none_of {S : List Txt} {t : Txt}
    (h : ∀ k, matchesAt S t k = false) : firstOccur S t = none := by
  cases hfo : firstOccur S t with
  | none => rfl
  | some k =>
    have := (firstOccur_some hfo).1
    rw [h k] at this
    exact absurd this (by simp)

theorem firstOccur_le_of_matches {S : List Txt} {t : Txt} {m : Nat}
    (h : matchesAt S t m = true) :
    ∃ k, firstOccur S t = some k ∧ k ≤ m := by
  cases hfo : firstOccur S t with
  | none => rw [firstOccur_none hfo m] at h; exact absurd h (by simp)
  | some k =>
    refine ⟨k, rfl, ?_⟩
    by_contra hc
    rw [(firstOccur_some hfo).2 m (by omega)] at h
    exact absurd h (by simp)

/-! ### `hbAux` / `holdback` -/

theorem hbAux_le {S : List Txt} {b : Txt} : ∀ M, hbAux S b M ≤ M := by
  intro M
  induction M with
  | zero => simp [hbAux]
  | succ M ih =>
    by_cases hp : properPreOfSome S (b.drop (b.length - (M + 1))) = true
    · simp [hbAux, hp]
    · simp [hbAux, hp]
      omega

theorem hbAux_ge {S : List Txt} {b : Txt} :
    ∀ M L, L ≤ M → properPreOfSome S (b.drop (b.length - L)) = true →
      L ≤ hbAux S b M := by
  intro M
  induction M with
  | zero => intro L h _; omega
  | succ M ih =>
    intro L hL hp
    by_cases hq : properPreOfSome S (b.drop (b.length - (M + 1))) = true
    · simp [hbAux, hq]; omega
    · simp [hbAux, hq]
      have hLM : L ≤ M := by
        rcases Nat.lt_or_ge L (M + 1) with h | h
        · omega
        · have : L = M + 1 := by omega
          subst this
          exact absurd hp (by simp [hq])
      exact ih L hLM hp

theorem hbAux_sat {S : List Txt} {b : Txt} :
    ∀ M, hbAux S b M = 0 ∨
      properPreOfSome S (b.drop (b.length - hbAux S b M)) = true := by
  intro M
  induction M with
  | zero => left; simp [hbAux]
  | succ M ih =>
    by_cases hp : properPreOfSome S (b.drop (b.length - (M + 1))) = true
    · right; simp [hbAux, hp]
    · simp [hbAux, hp]; exact ih

theorem holdback_le {S : List Txt} {b : Txt} : holdback S b ≤ b.length :=
  hbAux_le _

theorem holdback_ge {S : List Txt} {b : Txt} {L : Nat} (hL : L ≤ b.length)
    (hp : properPreOfSome S (b.drop (b.length - L)) = true) :
    L ≤ holdback S b :=
  hbAux_ge _ L hL hp

theorem holdback_sat {S : List Txt} {b : Txt} :
    holdback S b = 0 ∨
      properPreOfSome S (b.drop (b.length - holdback S b)) = true :=
  hbAux_sat _

/-! ## The matcher invariant

For an untriggered handler that has processed total text `P` and emitted
`E`: the withheld buffer completes `E` to `P`; no stop string occurs
anywhere in `P`; every suffix of `P` that is a proper initial segment of a
stop string is contained in the withheld buffer (and the buffer itself is
such a segment, or empty). -/
structure HandlerInv (S : List Txt) (P : Txt) (h : StopStringHandler)
    (E : Txt) : Prop where
  strs : h.stop_strs = S
  untrig : h.stop_triggered = false
  decomp : E ++ h.pending = P
  noOcc : ∀ k, matchesAt S P k = false
  maxPend : ∀ L, L ≤ P.length →
    properPreOfSome S (P.drop (P.length - L)) = true → L ≤ h.pending.length
  pendOk : h.pending = [] ∨ properPreOfSome S h.pending = true

theorem handlerInv_init (S : List Txt) :
    HandlerInv S [] (.init S) [] := by
  refine ⟨rfl, rfl, rfl, ?_, ?_, Or.inl rfl⟩
  · intro k
    exact matchesAt_of_ge (by simp)
  · intro L hL _
    simp at hL
    simp [hL, StopStringHandler.init]

theorem put_of_trig {h : StopStringHandler} (ht : h.stop_triggered = true)
    (c : Txt) : h.put c = ([], h) := by
  simp [StopStringHandler.put, ht]

theorem finish_of_trig {h : StopStringHandler}
    (ht : h.stop_triggered = true) : h.finish = ([], h) := by
  simp [StopStringHandler.finish, ht]

/-- Processing one chunk without triggering preserves the invariant. -/
theorem put_preserve {S : List Txt} {P E : Txt} {h : StopStringHandler}
    (inv : HandlerInv S P h E) (c : Txt)
    (hnt : (h.put c).2.stop_triggered = false) :
    HandlerInv S (P ++ c) (h.put c).2 (E ++ (h.put c).1) := by
  obtain ⟨ss, pe, tt⟩ := h
  obtain rfl : S = ss := inv.strs.symm
  obtain rfl : tt = false := inv.untrig
  have hdecomp : E ++ pe = P := inv.decomp
  have hb : E ++ (pe ++ c) = P ++ c := by rw [← List.append_assoc, hdecomp]
  rcases hfo : firstOccur S (pe ++ c) with _ | k
  case some => simp [StopStringHandler.put, hfo] at hnt
  have hput1 : ((⟨S, pe, false⟩ : StopStringHandler).put c).1
      = (pe ++ c).take ((pe ++ c).length - holdback S (pe ++ c)) := by
    simp [StopStringHandler.put, hfo]
  have hput2 : ((⟨S, pe, false⟩ : StopStringHandler).put c).2
      = ⟨S, (pe ++ c).drop ((pe ++ c).length - holdback S (pe ++ c)),
          false⟩ := by
    simp [StopStringHandler.put, hfo]
  rw [hput1, hput2]
  set b := pe ++ c with hbdef
  set w := holdback S b with hwdef
  have hwle : w ≤ b.length := holdback_le
  have hElen : E.length + pe.length = P.length := by
    have := congrArg List.length hdecomp
    simpa using this
  have hblen : b.length = pe.length + c.length := by simp [hbdef]
  -- no occurrence anywhere in P ++ c
  have hnoOcc : ∀ m, matchesAt S (P ++ c) m = false := by
    intro m
    by_contra hcon
    have hm := Bool.of_not_eq_false hcon
    rcases matchesAt_iff.1 hm with ⟨s, hsS, hsne, heq⟩
    have hfit : m + s.length ≤ (P ++ c).length := len_le_of_occ hsne heq
    by_cases hcase : m + s.length ≤ P.length
    · have : matchesAt S P m = true :=
        matchesAt_iff.2 ⟨s, hsS, hsne, occ_front heq hcase⟩
      rw [inv.noOcc m] at this
      exact absurd this (by simp)
    · by_cases hEm : E.length ≤ m
      · -- the occurrence lies inside the current window b
        have hmeq : m = E.length + (m - E.length) := by omega
        have hEb : matchesAt S (E ++ b) m = true := by rw [hb]; exact hm
        rw [hmeq, matchesAt_shift] at hEb
        rcases firstOccur_le_of_matches hEb with ⟨k, hk, _⟩
        rw [hfo] at hk
        exact absurd hk (by simp)
      · -- the occurrence starts before E: its P-suffix is a proper
        -- initial segment longer than pending, contradicting maxPend
        have hmP : m < P.length := by omega
        have hbd := occ_boundary heq hmP (by omega)
        have hppre : properPreOfSome S (P.drop m) = true := by
          refine properPreOfSome_iff.2 ⟨s, hsS, ?_, ?_⟩
          · simp [List.length_drop]; omega
          · have hdl : (P.drop m).length = P.length - m := by
              simp [List.length_drop]
            rw [hdl, hbd.1]
        have hmp := inv.maxPend (P.length - m) (by omega)
          (by rw [Nat.sub_sub_self (Nat.le_of_lt hmP)]; exact hppre)
        simp at hmp
        omega
  refine ⟨rfl, rfl, ?_, hnoOcc, ?_, ?_⟩
  · -- decomp
    show (E ++ b.take (b.length - w)) ++ b.drop (b.length - w) = P ++ c
    rw [List.append_assoc, List.take_append_drop]
    exact hb
  · -- maxPend
    intro L hL hp
    show L ≤ (b.drop (b.length - w)).length
    have hwlen : (b.drop (b.length - w)).length = w := by
      simp [List.length_drop]; omega
    rw [hwlen]
    simp only [List.length_append] at hL
    by_cases hLb : L ≤ b.length
    · -- the suffix lies inside the window b
      have hdropeq : (P ++ c).drop ((P ++ c).length - L)
          = b.drop (b.length - L) := by
        rw [← hb]
        have harith : (E ++ b).length - L = E.length + (b.length - L) := by
          simp only [List.length_append]
          omega
        rw [harith, drop_append_add]
      rw [hdropeq] at hp
      exact holdback_ge hLb hp
    · -- the suffix reaches back into P before the window: contradiction
      exfalso
      rcases properPreOfSome_iff.1 hp with ⟨s, hsS, hlt, hts⟩
      have hulen : ((P ++ c).drop ((P ++ c).length - L)).length = L := by
        simp only [List.length_drop, List.length_append]
        omega
      have hp0 : P.length + c.length - L < P.length := by omega
      have hLc : L - c.length ≤ P.length := by omega
      -- the part of the suffix that lies in P
      have hsplit : (P ++ c).drop ((P ++ c).length - L)
          = P.drop (P.length + c.length - L) ++ c := by
        have h1 : (P ++ c).length - L = P.length + c.length - L := by simp
        rw [h1, drop_append_of_le (by omega)]
      have hvlen : (P.drop (P.length + c.length - L)).length
          = L - c.length := by
        simp only [List.length_drop]
        omega
      have hvpre : properPreOfSome S (P.drop (P.length + c.length - L))
          = true := by
        refine properPreOfSome_iff.2 ⟨s, hsS, ?_, ?_⟩
        · rw [hvlen]; omega
        · -- s.take (L - c.length) = the P-part of the suffix
          rw [hulen] at hts
          have h2 := hts.trans hsplit
          have h3 : (s.take L).take (L - c.length)
              = P.drop (P.length + c.length - L) := by
            rw [h2, ← hvlen, take_append_of_le (Nat.le_refl _),
              List.take_length]
          rw [List.take_take, Nat.min_eq_left (by omega)] at h3
          rw [hvlen, h3]
      have hmp := inv.maxPend (L - c.length) hLc
        (by
          have harith : P.length - (L - c.length)
              = P.length + c.length - L := by omega
          rw [harith]; exact hvpre)
      simp at hmp
      omega
  · -- pendOk
    show b.drop (b.length - w) = [] ∨
      properPreOfSome S (b.drop (b.length - w)) = true
    rcases holdback_sat (S := S) (b := b) with h0 | hsat
    · left
      rw [← hwdef] at h0
      rw [h0, Nat.sub_zero, List.drop_length]
    · right
      rw [← hwdef] at hsat
      exact hsat

/-- Processing one chunk that triggers the matcher: the total emitted text
is a prefix of the total processed text cut at an occurrence of a stop
string. -/
theorem put_trigger {S : List Txt} {P E : Txt} {h : StopStringHandler}
    (inv : HandlerInv S P h E) (c : Txt)
    (ht : (h.put c).2.stop_triggered = true) :
    ∃ k', matchesAt S (P ++ c) k' = true ∧
      E ++ (h.put c).1 = (P ++ c).take k' ∧ k' ≤ (P ++ c).length ∧
      (h.put c).2.stop_strs = S ∧ (h.put c).2.pending = [] := by
  obtain ⟨ss, pe, tt⟩ := h
  obtain rfl : S = ss := inv.strs.symm
  obtain rfl : tt = false := inv.untrig
  have hdecomp : E ++ pe = P := inv.decomp
  have hb : E ++ (pe ++ c) = P ++ c := by rw [← List.append_assoc, hdecomp]
  rcases hfo : firstOccur S (pe ++ c) with _ | k
  case none => simp [StopStringHandler.put, hfo] at ht
  have hput1 : ((⟨S, pe, false⟩ : StopStringHandler).put c).1
      = (pe ++ c).take k := by
    simp [StopStringHandler.put, hfo]
  have hput2 : ((⟨S, pe, false⟩ : StopStringHandler).put c).2
      = ⟨S, [], true⟩ := by
    simp [StopStringHandler.put, hfo]
  have hmk : matchesAt S (pe ++ c) k = true := (firstOccur_some hfo).1
  refine ⟨E.length + k, ?_, ?_, ?_, ?_, ?_⟩
  · rw [← hb, matchesAt_shift]; exact hmk
  · rw [hput1, ← hb, take_append_add]
  · have hlt := matchesAt_lt_length hmk
    rw [← hb]
    simp only [List.length_append] at hlt ⊢
    omega
  · rw [hput2]
  · rw [hput2]

/-- Under the invariant, feeding the empty chunk is a no-op (this is what
the callback's `stop_handler.put(text_streamer.finish())` amounts to when
the streamer has nothing withheld). -/
theorem put_empty {S : List Txt} {P E : Txt} {h : StopStringHandler}
    (inv : HandlerInv S P h E) : h.put [] = ([], h) := by
  obtain ⟨ss, pe, tt⟩ := h
  obtain rfl : S = ss := inv.strs.symm
  obtain rfl : tt = false := inv.untrig
  have hdecomp : E ++ pe = P := inv.decomp
  have hfo : firstOccur S pe = none := by
    apply firstOccur_none_of
    intro k
    have hno := inv.noOcc (E.length + k)
    rw [← hdecomp, matchesAt_shift] at hno
    exact hno
  have hw : holdback S pe = pe.length := by
    apply Nat.le_antisymm holdback_le
    rcases inv.pendOk with h0 | hok
    · have h0l : pe = [] := h0
      rw [h0l]
      simp
    · exact holdback_ge (Nat.le_refl _)
        (by rw [Nat.sub_self, List.drop_zero]; exact hok)
  simp [StopStringHandler.put, List.append_nil, hfo, hw, Nat.sub_self]

/-! ## Request-level invariant and evolution under events -/

/-- Full decoded text of everything the engine has produced for a request:
the decode of its complete token history. -/
def reqText (tokStr : Nat → Txt) (st : ReqState) : Txt :=
  decodeToks tokStr st.hist

theorem decodeToks_append (tokStr : Nat → Txt) (a b : List Nat) :
    decodeToks tokStr (a ++ b)
      = decodeToks tokStr a ++ decodeToks tokStr b := by
  simp [decodeToks]

/-- The decoded text delta an event contributes. -/
def evDelta (tokStr : Nat → Txt) (e : StreamEvent) : Txt :=
  decodeToks tokStr e.toks

theorem finish_of_untrig {h : StopStringHandler}
    (ht : h.stop_triggered = false) :
    h.finish = (h.pending, { h with pending := [] }) := by
  simp [StopStringHandler.finish, ht]

theorem reqStep_closed {tokStr : Nat → Txt} {st : ReqState}
    {e : StreamEvent} (h : st.closed = true) :
    reqStep tokStr st e = .error .streamerReuse := by
  simp [reqStep, h]

theorem reqStep_trig {tokStr : Nat → Txt} {st : ReqState} {e : StreamEvent}
    (h : st.closed = false)
    (ht : (st.handler.put (evDelta tokStr e)).2.stop_triggered = true) :
    reqStep tokStr st e = .ok
      ({ hist := st.hist ++ e.toks, closed := false,
         handler := (st.handler.put (evDelta tokStr e)).2,
         output := st.output ++ (st.handler.put (evDelta tokStr e)).1,
         finishReason := some .stop }, some .stop) := by
  simp [reqStep, h, evDelta] at ht ⊢
  simp [ht]

theorem reqStep_none {tokStr : Nat → Txt} {st : ReqState} {e : StreamEvent}
    (h : st.closed = false)
    (ht : (st.handler.put (evDelta tokStr e)).2.stop_triggered = false)
    (hr : e.reason = none) :
    reqStep tokStr st e = .ok
      ({ hist := st.hist ++ e.toks, closed := false,
         handler := (st.handler.put (evDelta tokStr e)).2,
         output := st.output ++ (st.handler.put (evDelta tokStr e)).1,
         finishReason := st.finishReason }, none) := by
  simp [reqStep, h, evDelta] at ht ⊢
  simp [ht, hr, h]

theorem reqStep_fin {tokStr : Nat → Txt} {st : ReqState} {e : StreamEvent}
    {r : Nat} (h : st.closed = false)
    (ht : (st.handler.put (evDelta tokStr e)).2.stop_triggered = false)
    (hr : e.reason = some r)
    (hnoop : (st.handler.put (evDelta tokStr e)).2.put []
        = ([], (st.handler.put (evDelta tokStr e)).2)) :
    reqStep tokStr st e = .ok
      ({ hist := st.hist ++ e.toks, closed := true,
         handler := { (st.handler.put (evDelta tokStr e)).2 with
                      pending := [] },
         output := st.output ++ (st.handler.put (evDelta tokStr e)).1
           ++ (st.handler.put (evDelta tokStr e)).2.pending,
         finishReason := some (.engine r) }, some (.engine r)) := by
  simp [reqStep, h, evDelta] at ht hnoop ⊢
  simp [ht, hr, hnoop, finish_of_untrig, StopStringHandler.finish]

/-- Lifecycle invariant of one request's state across callback deliveries,
with `S` its configured stop strings and the decode of its token history as
total text.  Three phases: live (streaming, nothing decided yet),
stop-triggered (output cut at an occurrence of a stop string, reason forced
to `"stop"`, streamer never closed), and closed (an engine finish reason
was processed, the full text was emitted, and no stop string occurs in
it). -/
def RInv (tokStr : Nat → Txt) (S : List Txt) (st : ReqState) : Prop :=
  (st.closed = false ∧ st.finishReason = none ∧
     HandlerInv S (reqText tokStr st) st.handler st.output)
  ∨ (st.closed = false ∧ st.finishReason = some .stop ∧
       st.handler.stop_strs = S ∧ st.handler.stop_triggered = true ∧
       ∃ k', k' ≤ (reqText tokStr st).length ∧
         matchesAt S (reqText tokStr st) k' = true ∧
         st.output = (reqText tokStr st).take k')
  ∨ (st.closed = true ∧ (∃ r, st.finishReason = some (.engine r)) ∧
       st.handler.stop_triggered = false ∧
       st.output = reqText tokStr st ∧
       ∀ k, matchesAt S (reqText tokStr st) k = false)

theorem rinv_init (tokStr : Nat → Txt) (g : GenerationConfig) :
    RInv tokStr g.stop_strs (initReq g) :=
  Or.inl ⟨rfl, rfl, handlerInv_init _⟩

/-- One event preserves the request invariant. -/
theorem reqStep_rinv {tokStr : Nat → Txt} {S : List Txt} {st st' : ReqState}
    {e : StreamEvent} {fr : Option FReason}
    (inv : RInv tokStr S st) (hstep : reqStep tokStr st e = .ok (st', fr)) :
    RInv tokStr S st' := by
  rcases inv with ⟨hcl, hfr, hinv⟩ |
    ⟨hcl, hfr, hstrs, htr, k', hk', hmk, hout⟩ | ⟨hcl, _, _, _, _⟩
  · -- live state
    have hT : reqText tokStr st = reqText tokStr st := rfl
    by_cases htrig :
        (st.handler.put (evDelta tokStr e)).2.stop_triggered = true
    · -- the matcher triggers on this event
      rw [reqStep_trig hcl htrig] at hstep
      simp only [Except.ok.injEq, Prod.mk.injEq] at hstep
      obtain ⟨rfl, rfl⟩ := hstep
      rcases put_trigger hinv (evDelta tokStr e) htrig with
        ⟨k', hmk', hek', hlen', hstrs', _⟩
      right; left
      have hTnew : reqText tokStr
          { hist := st.hist ++ e.toks, closed := false,
            handler := (st.handler.put (evDelta tokStr e)).2,
            output := st.output ++ (st.handler.put (evDelta tokStr e)).1,
            finishReason := some .stop }
          = reqText tokStr st ++ evDelta tokStr e := by
        simp [reqText, decodeToks_append, evDelta]
      refine ⟨rfl, rfl, hstrs', htrig, k', ?_, ?_, ?_⟩
      · rw [hTnew]; exact hlen'
      · rw [hTnew]; exact hmk'
      · rw [hTnew]; exact hek'.symm ▸ rfl
    · -- no trigger on this event
      have htrig' :
          (st.handler.put (evDelta tokStr e)).2.stop_triggered = false :=
        Bool.eq_false_iff.2 htrig
      have hinv' := put_preserve hinv (evDelta tokStr e) htrig'
      cases hre : e.reason with
      | none =>
        rw [reqStep_none hcl htrig' hre] at hstep
        simp only [Except.ok.injEq, Prod.mk.injEq] at hstep
        obtain ⟨rfl, rfl⟩ := hstep
        left
        refine ⟨rfl, hfr, ?_⟩
        have hTnew : reqText tokStr
            { hist := st.hist ++ e.toks, closed := false,
              handler := (st.handler.put (evDelta tokStr e)).2,
              output := st.output ++ (st.handler.put (evDelta tokStr e)).1,
              finishReason := st.finishReason }
            = reqText tokStr st ++ evDelta tokStr e := by
          simp [reqText, decodeToks_append, evDelta]
        rw [hTnew]
        exact hinv'
      | some r =>
        have hnoop := put_empty hinv'
        rw [reqStep_fin hcl htrig' hre hnoop] at hstep
        simp only [Except.ok.injEq, Prod.mk.injEq] at hstep
        obtain ⟨rfl, rfl⟩ := hstep
        right; right
        have hTnew : reqText tokStr
            { hist := st.hist ++ e.toks, closed := true,
              handler := { (st.handler.put (evDelta tokStr e)).2 with
                           pending := [] },
              output := st.output ++ (st.handler.put (evDelta tokStr e)).1
                ++ (st.handler.put (evDelta tokStr e)).2.pending,
              finishReason := some (.engine r) }
            = reqText tokStr st ++ evDelta tokStr e := by
          simp [reqText, decodeToks_append, evDelta]
        refine ⟨rfl, ⟨r, rfl⟩, ?_, ?_, ?_⟩
        · exact htrig'
        · rw [hTnew]
          exact hinv'.decomp
        · rw [hTnew]
          exact hinv'.noOcc
  · -- stop-triggered state: the handler swallows everything
    have hput := put_of_trig htr (evDelta tokStr e)
    have htrig2 :
        (st.handler.put (evDelta tokStr e)).2.stop_triggered = true := by
      rw [hput]; exact htr
    rw [reqStep_trig hcl htrig2] at hstep
    simp only [Except.ok.injEq, Prod.mk.injEq] at hstep
    obtain ⟨rfl, rfl⟩ := hstep
    right; left
    have hTnew : reqText tokStr
        { hist := st.hist ++ e.toks, closed := false,
          handler := (st.handler.put (evDelta tokStr e)).2,
          output := st.output ++ (st.handler.put (evDelta tokStr e)).1,
          finishReason := some .stop }
        = reqText tokStr st ++ evDelta tokStr e := by
      simp [reqText, decodeToks_append, evDelta]
    refine ⟨rfl, rfl, ?_, htrig2, k', ?_, ?_, ?_⟩
    · rw [hput]; exact hstrs
    · rw [hTnew]
      simp only [List.length_append]
      omega
    · rw [hTnew]
      exact matchesAt_mono_right hmk
    · rw [hTnew, hput]
      show st.output ++ [] = (reqText tokStr st ++ evDelta tokStr e).take k'
      rw [List.append_nil, take_append_of_le hk', hout]
  · -- closed state: any further event faults, contradiction
    rw [reqStep_closed hcl] at hstep
    exact absurd hstep (by simp)

/-! ## Running one request over its own event stream -/

/-- Fold of `reqStep` over a request's events (the per-request view of the
callback's processing). -/
def reqRun (tokStr : Nat → Txt) : ReqState → List StreamEvent →
    Except Fault ReqState
  | st, [] => .ok st
  | st, e :: rest =>
    match reqStep tokStr st e with
    | .error f => .error f
    | .ok (st', _) => reqRun tokStr st' rest

theorem reqRun_rinv {tokStr : Nat → Txt} {S : List Txt} :
    ∀ {evs : List StreamEvent} {st st' : ReqState}, RInv tokStr S st →
      reqRun tokStr st evs = .ok st' → RInv tokStr S st' := by
  intro evs
  induction evs with
  | nil =>
    intro st st' inv h
    simp [reqRun] at h
    exact h ▸ inv
  | cons e rest ih =>
    intro st st' inv h
    rw [reqRun] at h
    rcases hstep : reqStep tokStr st e with f | ⟨st1, fr⟩
    · rw [hstep] at h; exact absurd h (by simp)
    · rw [hstep] at h
      exact ih (reqStep_rinv inv hstep) h

theorem reqStep_hist {tokStr : Nat → Txt} {st st' : ReqState}
    {e : StreamEvent} {fr : Option FReason}
    (h : reqStep tokStr st e = .ok (st', fr)) :
    st'.hist = st.hist ++ e.toks := by
  rw [reqStep] at h
  by_cases hc : st.closed
  · simp [hc] at h
  · simp only [hc, Bool.false_eq_true, if_false] at h
    by_cases ht : (st.handler.put (decodeToks tokStr e.toks)).2.stop_triggered
    · simp only [ht, if_true] at h
      simp only [Except.ok.injEq, Prod.mk.injEq] at h
      obtain ⟨rfl, rfl⟩ := h
      rfl
    · simp only [ht, Bool.false_eq_true, if_false] at h
      cases hre : e.reason with
      | some r =>
        simp only [hre] at h
        by_cases ht2 : ((st.handler.put (decodeToks tokStr e.toks)).2.put
            []).2.stop_triggered
        · simp only [ht2, if_true] at h
          simp only [Except.ok.injEq, Prod.mk.injEq] at h
          obtain ⟨rfl, rfl⟩ := h
          rfl
        · simp only [ht2, Bool.false_eq_true, if_false] at h
          simp only [Except.ok.injEq, Prod.mk.injEq] at h
          obtain ⟨rfl, rfl⟩ := h
          rfl
      | none =>
        simp only [hre] at h
        simp only [Except.ok.injEq, Prod.mk.injEq] at h
        obtain ⟨rfl, rfl⟩ := h
        rfl

theorem reqRun_hist {tokStr : Nat → Txt} :
    ∀ {evs : List StreamEvent} {st st' : ReqState},
      reqRun tokStr st evs = .ok st' →
      st'.hist = st.hist ++ (evs.map StreamEvent.toks).flatten := by
  intro evs
  induction evs with
  | nil =>
    intro st st' h
    simp [reqRun] at h
    simp [← h]
  | cons e rest ih =>
    intro st st' h
    rw [reqRun] at h
    rcases hstep : reqStep tokStr st e with f | ⟨st1, fr⟩
    · rw [hstep] at h; exact absurd h (by simp)
    · rw [hstep] at h
      rw [ih h, reqStep_hist hstep]
      simp

/-- If a run ends with an engine-tagged finish reason that was not already
recorded at the start, some event of the run carried that reason. -/
theorem reqRun_engine_reason {tokStr : Nat → Txt} {r : Nat} :
    ∀ {evs : List StreamEvent} {st st' : ReqState},
      reqRun tokStr st evs = .ok st' →
      st'.finishReason = some (.engine r) →
      st.finishReason = some (.engine r) ∨
        ∃ e ∈ evs, e.reason = some r := by
  intro evs
  induction evs with
  | nil =>
    intro st st' h hfr
    simp [reqRun] at h
    left
    rw [h]
    exact hfr
  | cons e rest ih =>
    intro st st' h hfr
    rw [reqRun] at h
    rcases hstep : reqStep tokStr st e with f | ⟨st1, fr⟩
    · rw [hstep] at h; exact absurd h (by simp)
    · rw [hstep] at h
      rcases ih h hfr with h1 | ⟨e', he', hr'⟩
      · -- the step produced the engine reason or passed it through
        rw [reqStep] at hstep
        by_cases hc : st.closed
        · simp [hc] at hstep
        · simp only [hc, Bool.false_eq_true, if_false] at hstep
          by_cases ht :
              (st.handler.put (decodeToks tokStr e.toks)).2.stop_triggered
          · simp only [ht, if_true, Except.ok.injEq, Prod.mk.injEq] at hstep
            obtain ⟨rfl, rfl⟩ := hstep
            simp at h1
          · simp only [ht, Bool.false_eq_true, if_false] at hstep
            cases hre : e.reason with
            | some r2 =>
              simp only [hre] at hstep
              by_cases ht2 : ((st.handler.put
                  (decodeToks tokStr e.toks)).2.put []).2.stop_triggered
              · simp only [ht2, if_true, Except.ok.injEq,
                  Prod.mk.injEq] at hstep
                obtain ⟨rfl, rfl⟩ := hstep
                simp at h1
              · simp only [ht2, Bool.false_eq_true, if_false,
                  Except.ok.injEq, Prod.mk.injEq] at hstep
                obtain ⟨rfl, rfl⟩ := hstep
                simp at h1
                right
                exact ⟨e, List.mem_cons_self .., by rw [hre, h1]⟩
            | none =>
              simp only [hre, Except.ok.injEq, Prod.mk.injEq] at hstep
              obtain ⟨rfl, rfl⟩ := hstep
              left
              exact h1
      · right
        exact ⟨e', List.mem_cons_of_mem _ he', hr'⟩

/-! ## Routing: each request's state evolves from its own events only -/

theorem getD_set_self {α : Type} (l : List α) (i : Nat) (a d : α)
    (h : i < l.length) : (l.set i a).getD i d = a := by
  induction l generalizing i with
  | nil => simp at h
  | cons x xs ih =>
    cases i with
    | zero => rfl
    | succ j =>
      simp only [List.set_cons_succ]
      exact ih j (by simpa using h)

theorem getD_set_other {α : Type} (l : List α) (i j : Nat) (a d : α)
    (h : i ≠ j) : (l.set i a).getD j d = l.getD j d := by
  induction l generalizing i j with
  | nil => simp
  | cons x xs ih =>
    cases i with
    | zero =>
      cases j with
      | zero => exact absurd rfl h
      | succ j2 => rfl
    | succ i2 =>
      cases j with
      | zero => rfl
      | succ j2 =>
        simp only [List.set_cons_succ]
        exact ih i2 j2 (by omega)

/-- The events of one delivery that target request `i` (through Python
subscript semantics). -/
def evsFor (n : Nat) (i : Nat) (evs : List StreamEvent) : List StreamEvent :=
  evs.filter fun e => pyIndex n e.rid == some i

theorem evsFor_cons (n i : Nat) (e : StreamEvent) (evs : List StreamEvent) :
    evsFor n i (e :: evs)
      = if pyIndex n e.rid = some i then e :: evsFor n i evs
        else evsFor n i evs := by
  by_cases h : pyIndex n e.rid = some i
  · simp [evsFor, List.filter_cons, h]
  · simp [evsFor, List.filter_cons, h]

theorem pyIndex_lt {n : Nat} {r : Int} {i : Nat} (h : pyIndex n r = some i) :
    i < n := by
  rw [pyIndex] at h
  by_cases h1 : 0 ≤ r ∧ r < (n : Int)
  · rw [if_pos h1] at h
    injection h with h
    have hi : (i : Int) = r := by
      rw [← h]
      exact Int.toNat_of_nonneg h1.1
    omega
  · rw [if_neg h1] at h
    by_cases h2 : -(n : Int) ≤ r ∧ r < 0
    · rw [if_pos h2] at h
      injection h with h
      have hi : (i : Int) = (n : Int) + r := by
        rw [← h]
        exact Int.toNat_of_nonneg (by omega)
      omega
    · rw [if_neg h2] at h
      exact absurd h (by simp)

/-- Dispatching a delivery decomposes per request: the final state of
request `i` is obtained by running exactly the events that target `i`, in
order, on its own state. -/
theorem processEvents_route {tokStr : Nat → Txt} :
    ∀ {evs : List StreamEvent} {states states' : List ReqState}
      {count count' : Nat},
      processEvents tokStr states count evs = .ok (states', count') →
      states'.length = states.length ∧
      ∀ i, i < states.length →
        reqRun tokStr (states.getD i dfltReq)
            (evsFor states.length i evs)
          = .ok (states'.getD i dfltReq) := by
  intro evs
  induction evs with
  | nil =>
    intro states states' count count' h
    simp only [processEvents, Except.ok.injEq, Prod.mk.injEq] at h
    obtain ⟨rfl, rfl⟩ := h
    exact ⟨rfl, fun i _ => by simp [evsFor, reqRun]⟩
  | cons e rest ih =>
    intro states states' count count' h
    rw [processEvents] at h
    rcases hpe : processEvent tokStr (states, count) e with f | ⟨s1, c1⟩
    · rw [hpe] at h; exact absurd h (by simp)
    · rw [hpe] at h
      rw [processEvent] at hpe
      rcases hpi : pyIndex states.length e.rid with _ | j
      · simp only [hpi] at hpe; exact absurd hpe (by simp)
      · simp only [hpi] at hpe
        rcases hstep : reqStep tokStr (states.getD j dfltReq) e with
          f | ⟨st', fr⟩
        · simp only [hstep] at hpe; exact absurd hpe (by simp)
        · simp only [hstep, Except.ok.injEq, Prod.mk.injEq] at hpe
          obtain ⟨rfl, rfl⟩ := hpe
          have hjlt : j < states.length := pyIndex_lt hpi
          have hlen : (states.set j st').length = states.length := by simp
          rcases ih h with ⟨hlen2, hrun⟩
          refine ⟨by rw [hlen2, hlen], fun i hi => ?_⟩
          by_cases hij : i = j
          · subst hij
            rw [evsFor_cons, if_pos hpi]
            have h1 := hrun i (by rw [hlen]; exact hi)
            rw [hlen, getD_set_self _ _ _ _ hjlt] at h1
            rw [reqRun]
            simp only [hstep]
            exact h1
          · rw [evsFor_cons, if_neg (by rw [hpi]; simp; omega)]
            have h1 := hrun i (by rw [hlen]; exact hi)
            rw [hlen, getD_set_other _ _ _ _ _ (by omega)] at h1
            exact h1

/-! ## Finished-request accounting -/

/-- Number of requests whose ghost finish reason is recorded (`Done`). -/
def doneCount (s : List ReqState) : Nat :=
  s.countP fun st => st.finishReason.isSome

/-- The environment assumption of spec §4.4 ("`Done` requests must not
receive further events"), checked against a delivery by simulation: no
event of the delivery targets a request that is already `Done` at the
moment the event is processed.  Events that will fault (bad id, closed
streamer) are not constrained. -/
def respectsDone (tokStr : Nat → Txt) :
    List ReqState → List StreamEvent → Bool
  | _, [] => true
  | states, e :: rest =>
    match pyIndex states.length e.rid with
    | none => true
    | some i =>
      if (states.getD i dfltReq).finishReason.isSome then false
      else
        match reqStep tokStr (states.getD i dfltReq) e with
        | .error _ => true
        | .ok (st', _) => respectsDone tokStr (states.set i st') rest

/-- One event never decrements the finished count. -/
theorem processEvent_mono {tokStr : Nat → Txt} {states states' : List ReqState}
    {count count' : Nat} {e : StreamEvent}
    (h : processEvent tokStr (states, count) e = .ok (states', count')) :
    count ≤ count' := by
  rw [processEvent] at h
  rcases hpi : pyIndex states.length e.rid with _ | j
  · simp only [hpi] at h; exact absurd h (by simp)
  · simp only [hpi] at h
    rcases hstep : reqStep tokStr (states.getD j dfltReq) e with f | ⟨st', fr⟩
    · simp only [hstep] at h; exact absurd h (by simp)
    · simp only [hstep, Except.ok.injEq, Prod.mk.injEq] at h
      obtain ⟨rfl, rfl⟩ := h
      omega

/-- A callback delivery never decrements the finished count. -/
theorem processEvents_mono {tokStr : Nat → Txt} :
    ∀ {evs : List StreamEvent} {states states' : List ReqState}
      {count count' : Nat},
      processEvents tokStr states count evs = .ok (states', count') →
      count ≤ count' := by
  intro evs
  induction evs with
  | nil =>
    intro states states' count count' h
    simp only [processEvents, Except.ok.injEq, Prod.mk.injEq] at h
    omega
  | cons e rest ih =>
    intro states states' count count' h
    rw [processEvents] at h
    rcases hpe : processEvent tokStr (states, count) e with f | ⟨s1, c1⟩
    · rw [hpe] at h; exact absurd h (by simp)
    · rw [hpe] at h
      exact Nat.le_trans (processEvent_mono hpe) (ih h)

/-- An event step on a not-yet-`Done` request records a finish reason in
the state exactly when it reports one to the counter. -/
theorem reqStep_done {tokStr : Nat → Txt} {st st' : ReqState}
    {e : StreamEvent} {fr : Option FReason}
    (h : reqStep tokStr st e = .ok (st', fr))
    (hnd : st.finishReason = none) :
    st'.finishReason.isSome = fr.isSome := by
  rw [reqStep] at h
  by_cases hc : st.closed
  · simp [hc] at h
  · simp only [hc, Bool.false_eq_true, if_false] at h
    by_cases ht : (st.handler.put (decodeToks tokStr e.toks)).2.stop_triggered
    · simp only [ht, if_true, Except.ok.injEq, Prod.mk.injEq] at h
      obtain ⟨rfl, rfl⟩ := h
      rfl
    · simp only [ht, Bool.false_eq_true, if_false] at h
      cases hre : e.reason with
      | some r =>
        simp only [hre] at h
        by_cases ht2 : ((st.handler.put (decodeToks tokStr e.toks)).2.put
            []).2.stop_triggered
        · simp only [ht2, if_true, Except.ok.injEq, Prod.mk.injEq] at h
          obtain ⟨rfl, rfl⟩ := h
          rfl
        · simp only [ht2, Bool.false_eq_true, if_false, Except.ok.injEq,
            Prod.mk.injEq] at h
          obtain ⟨rfl, rfl⟩ := h
          rfl
      | none =>
        simp only [hre, Except.ok.injEq, Prod.mk.injEq] at h
        obtain ⟨rfl, rfl⟩ := h
        simp [hnd]

theorem countP_set_balance {α : Type} (p : α → Bool) :
    ∀ (l : List α) (i : Nat) (a d : α), i < l.length →
      (l.set i a).countP p + (if p (l.getD i d) then 1 else 0)
        = l.countP p + (if p a then 1 else 0) := by
  intro l
  induction l with
  | nil => intro i a d h; simp at h
  | cons x xs ih =>
    intro i a d h
    cases i with
    | zero =>
      simp only [List.set_cons_zero, List.countP_cons, List.getD_cons_zero]
      omega
    | succ j =>
      simp only [List.set_cons_succ, List.countP_cons, List.getD_cons_succ]
      have := ih j a d (by simpa using h)
      omega

/-- Under the no-events-after-`Done` assumption, a delivery keeps the
finished counter equal to the number of `Done` requests (hence bounded by
the batch size). -/
theorem processEvents_bound {tokStr : Nat → Txt} :
    ∀ {evs : List StreamEvent} {states states' : List ReqState}
      {count count' : Nat},
      count = doneCount states →
      respectsDone tokStr states evs = true →
      processEvents tokStr states count evs = .ok (states', count') →
      count' = doneCount states' ∧ states'.length = states.length := by
  intro evs
  induction evs with
  | nil =>
    intro states states' count count' hc _ h
    simp only [processEvents, Except.ok.injEq, Prod.mk.injEq] at h
    obtain ⟨rfl, rfl⟩ := h
    exact ⟨hc, rfl⟩
  | cons e rest ih =>
    intro states states' count count' hc hresp h
    rw [processEvents] at h
    rcases hpe : processEvent tokStr (states, count) e with f | ⟨s1, c1⟩
    · rw [hpe] at h; exact absurd h (by simp)
    · rw [hpe] at h
      rw [processEvent] at hpe
      rcases hpi : pyIndex states.length e.rid with _ | j
      · simp only [hpi] at hpe; exact absurd hpe (by simp)
      · simp only [hpi] at hpe
        rcases hstep : reqStep tokStr (states.getD j dfltReq) e with
          f | ⟨st', fr⟩
        · simp only [hstep] at hpe; exact absurd hpe (by simp)
        · simp only [hstep, Except.ok.injEq, Prod.mk.injEq] at hpe
          obtain ⟨rfl, rfl⟩ := hpe
          rw [respectsDone] at hresp
          simp only [hpi] at hresp
          by_cases hdone : (states.getD j dfltReq).finishReason.isSome
          · rw [if_pos hdone] at hresp
            exact absurd hresp (by simp)
          · rw [if_neg hdone] at hresp
            simp only [hstep] at hresp
            have hjlt : j < states.length := pyIndex_lt hpi
            have hnd : (states.getD j dfltReq).finishReason = none := by
              cases hx : (states.getD j dfltReq).finishReason with
              | none => rfl
              | some v => rw [hx] at hdone; exact absurd rfl hdone
            have hbal := countP_set_balance
              (fun st => st.finishReason.isSome) states j st' dfltReq hjlt
            have hfr := reqStep_done hstep hnd
            have hc1 : count + (if fr.isSome then 1 else 0)
                = doneCount (states.set j st') := by
              rw [hc]
              unfold doneCount
              simp only [hnd, hfr, Option.isSome_none, Bool.false_eq_true,
                if_false, Nat.add_zero] at hbal
              exact hbal.symm
            rcases ih hc1 hresp h with ⟨h1, h2⟩
            refine ⟨h1, by rw [h2]; simp⟩

theorem doneCount_le (s : List ReqState) : doneCount s ≤ s.length :=
  List.countP_le_length _

/-! ## The driving loop -/

/-- The loop `while num_finished_requests != num_requests` exits exactly
when the counter equals the batch size. -/
theorem runLoop_finished_count {tokStr : Nat → Txt} {n : Nat} :
    ∀ {trace : List (List StreamEvent)} {states s' : List ReqState}
      {count c' k : Nat},
      runLoop tokStr n states count trace = .finished s' c' k → c' = n := by
  intro trace
  induction trace with
  | nil =>
    intro states s' count c' k h
    rw [runLoop] at h
    by_cases hc : count = n
    · rw [if_pos hc] at h
      simp only [LoopRes.finished.injEq] at h
      obtain ⟨rfl, rfl, rfl⟩ := h
      exact hc
    · rw [if_neg hc] at h
      exact absurd h (by simp)
  | cons d rest ih =>
    intro states s' count c' k h
    rw [runLoop] at h
    by_cases hc : count = n
    · rw [if_pos hc] at h
      simp only [LoopRes.finished.injEq] at h
      obtain ⟨rfl, rfl, rfl⟩ := h
      exact hc
    · rw [if_neg hc] at h
      rcases hpe : processEvents tokStr states count d with f | ⟨s1, c1⟩
      · simp only [hpe] at h; exact absurd h (by simp [LoopRes.bump])
      · simp only [hpe] at h
        rcases hr : runLoop tokStr n s1 c1 rest with
          ⟨s2, c2, k2⟩ | ⟨f2, k2⟩ | _
        · rw [hr] at h
          simp only [LoopRes.bump, LoopRes.finished.injEq] at h
          obtain ⟨rfl, rfl, rfl⟩ := h
          exact ih hr
        · rw [hr] at h; exact absurd h (by simp [LoopRes.bump])
        · rw [hr] at h; exact absurd h (by simp [LoopRes.bump])

theorem processEvents_append {tokStr : Nat → Txt} :
    ∀ {a b : List StreamEvent} {states s1 : List ReqState} {count c1 : Nat},
      processEvents tokStr states count a = .ok (s1, c1) →
      processEvents tokStr states count (a ++ b)
        = processEvents tokStr s1 c1 b := by
  intro a
  induction a with
  | nil =>
    intro b states s1 count c1 h
    simp only [processEvents, Except.ok.injEq, Prod.mk.injEq] at h
    obtain ⟨rfl, rfl⟩ := h
    rfl
  | cons e a2 ih =>
    intro b states s1 count c1 h
    rw [processEvents] at h
    rcases hpe : processEvent tokStr (states, count) e with f | ⟨s2, c2⟩
    · rw [hpe] at h; exact absurd h (by simp)
    · rw [hpe] at h
      show processEvents tokStr states count (e :: (a2 ++ b)) = _
      rw [processEvents, hpe]
      exact ih h

/-- A finished loop is the same as processing the flattened consumed
deliveries in one go. -/
theorem runLoop_route {tokStr : Nat → Txt} {n : Nat} :
    ∀ {trace : List (List StreamEvent)} {states s' : List ReqState}
      {count c' k : Nat},
      runLoop tokStr n states count trace = .finished s' c' k →
      processEvents tokStr states count ((trace.take k).flatten)
        = .ok (s', c') := by
  intro trace
  induction trace with
  | nil =>
    intro states s' count c' k h
    rw [runLoop] at h
    by_cases hc : count = n
    · rw [if_pos hc] at h
      simp only [LoopRes.finished.injEq] at h
      obtain ⟨rfl, rfl, rfl⟩ := h
      rfl
    · rw [if_neg hc] at h
      exact absurd h (by simp)
  | cons d rest ih =>
    intro states s' count c' k h
    rw [runLoop] at h
    by_cases hc : count = n
    · rw [if_pos hc] at h
      simp only [LoopRes.finished.injEq] at h
      obtain ⟨rfl, rfl, rfl⟩ := h
      rfl
    · rw [if_neg hc] at h
      rcases hpe : processEvents tokStr states count d with f | ⟨s1, c1⟩
      · simp only [hpe] at h; exact absurd h (by simp [LoopRes.bump])
      · simp only [hpe] at h
        rcases hr : runLoop tokStr n s1 c1 rest with
          ⟨s2, c2, k2⟩ | ⟨f2, k2⟩ | _
        · rw [hr] at h
          simp only [LoopRes.bump, LoopRes.finished.injEq] at h
          obtain ⟨rfl, rfl, rfl⟩ := h
          have h2 := ih hr
          rw [List.take_cons, List.flatten_cons,
            processEvents_append hpe]
          · exact h2
          · omega
        · rw [hr] at h; exact absurd h (by simp [LoopRes.bump])
        · rw [hr] at h; exact absurd h (by simp [LoopRes.bump])

/-! ## Characterizing the outcomes of `generate` -/

theorem generate_empty_input (tokStr : Nat → Txt) (c₀ : CbSlot)
    (cfg : ConfigArg) (trace : List (List StreamEvent)) :
    Engine.generate tokStr c₀ (.ofList []) cfg trace = .ok [] c₀ [] [] 0 :=
  rfl

/-- Anatomy of a normal return of `generate`. -/
theorem generate_ok_cases {tokStr : Nat → Txt} {c₀ : CbSlot}
    {prompts : PromptsArg} {cfg : ConfigArg}
    {trace : List (List StreamEvent)} {res : List Txt} {slot : CbSlot}
    {ops : List EngineOp} {sts : List ReqState} {k : Nat}
    (h : Engine.generate tokStr c₀ prompts cfg trace
        = .ok res slot ops sts k) :
    slot = c₀ ∧
    ((promote prompts = [] ∧ res = [] ∧ ops = [] ∧ sts = [] ∧ k = 0) ∨
     (promote prompts ≠ [] ∧
       (broadcast cfg (promote prompts).length).length
         = (promote prompts).length ∧
       (∃ cnt, runLoop tokStr (promote prompts).length
           ((broadcast cfg (promote prompts).length).map initReq) 0 trace
           = .finished sts cnt k) ∧
       res = sts.map ReqState.output ∧
       ops = .getCb :: .setCb .batchScoped ::
         addOps (promote prompts)
           (broadcast cfg (promote prompts).length)
         ++ List.replicate k .stepOp ++ [.setCb c₀])) := by
  rw [Engine.generate] at h
  rcases hp : promote prompts with _ | ⟨p, ps⟩
  · rw [hp] at h
    simp only [GenOutcome.ok.injEq] at h
    obtain ⟨rfl, rfl, rfl, rfl, rfl⟩ := h
    exact ⟨rfl, Or.inl ⟨rfl, rfl, rfl, rfl, rfl⟩⟩
  · rw [hp] at h
    simp only at h
    by_cases hlen : (broadcast cfg (p :: ps).length).length ≠ (p :: ps).length
    · rw [if_pos hlen] at h
      exact absurd h (by simp)
    · rw [if_neg hlen] at h
      rcases hr : runLoop tokStr (p :: ps).length
          ((broadcast cfg (p :: ps).length).map initReq) 0 trace with
        ⟨s2, c2, k2⟩ | ⟨f2, k2⟩ | _
      · simp only [hr, GenOutcome.ok.injEq] at h
        obtain ⟨rfl, rfl, rfl, rfl, rfl⟩ := h
        exact ⟨rfl, Or.inr ⟨by simp, not_ne_iff.1 hlen, ⟨c2, rfl⟩,
          rfl, rfl⟩⟩
      · simp only [hr] at h; exact absurd h (by simp)
      · simp only [hr] at h; exact absurd h (by simp)

/-- Anatomy of a fault raised out of `generate`: either the
config-mismatch assert fired before any engine interaction (callback slot
untouched), or a callback delivery faulted inside the driving loop and the
batch-scoped callback was left installed. -/
theorem generate_fault_cases {tokStr : Nat → Txt} {c₀ : CbSlot}
    {prompts : PromptsArg} {cfg : ConfigArg}
    {trace : List (List StreamEvent)} {f : Fault} {slot : CbSlot}
    {ops : List EngineOp}
    (h : Engine.generate tokStr c₀ prompts cfg trace = .fault f slot ops) :
    (f = .configMismatch ∧ slot = c₀ ∧ ops = [] ∧ promote prompts ≠ [] ∧
       (broadcast cfg (promote prompts).length).length
         ≠ (promote prompts).length) ∨
    (slot = .batchScoped ∧
       ∃ k, runLoop tokStr (promote prompts).length
           ((broadcast cfg (promote prompts).length).map initReq) 0 trace
           = .faulted f k) := by
  rw [Engine.generate] at h
  rcases hp : promote prompts with _ | ⟨p, ps⟩
  · rw [hp] at h
    exact absurd h (by simp)
  · rw [hp] at h
    simp only at h
    by_cases hlen : (broadcast cfg (p :: ps).length).length ≠ (p :: ps).length
    · rw [if_pos hlen] at h
      simp only [GenOutcome.fault.injEq] at h
      obtain ⟨rfl, rfl, rfl⟩ := h
      left
      exact ⟨rfl, rfl, rfl, by simp, hlen⟩
    · rw [if_neg hlen] at h
      rcases hr : runLoop tokStr (p :: ps).length
          ((broadcast cfg (p :: ps).length).map initReq) 0 trace with
        ⟨s2, c2, k2⟩ | ⟨f2, k2⟩ | _
      · simp only [hr] at h; exact absurd h (by simp)
      · simp only [hr, GenOutcome.fault.injEq] at h
        obtain ⟨rfl, rfl, rfl⟩ := h
        right
        exact ⟨rfl, k2, rfl⟩
      · simp only [hr] at h; exact absurd h (by simp)

/-- The config-mismatch precondition fault (engine.py lines 259-261):
for a nonempty promoted prompt list, a config list of the wrong length
faults before any engine interaction (empty operation log, callback slot
untouched). -/
theorem generate_mismatch {tokStr : Nat → Txt} {c₀ : CbSlot}
    {prompts : PromptsArg} {l : List GenerationConfig}
    {trace : List (List StreamEvent)}
    (hne : promote prompts ≠ [])
    (hlen : l.length ≠ (promote prompts).length) :
    Engine.generate tokStr c₀ prompts (.many l) trace
      = .fault .configMismatch c₀ [] := by
  rw [Engine.generate]
  rcases hp : promote prompts with _ | ⟨p, ps⟩
  · exact absurd hp hne
  · simp only
    rw [if_pos (by rw [hp] at hlen; simpa [broadcast] using hlen)]

/-! ## Remaining helpers for the claim statements -/

theorem matchesAt_nil (t : Txt) (k : Nat) : matchesAt [] t k = false := by
  simp [matchesAt]

theorem getD_map {α β : Type} (f : α → β) (d : α) :
    ∀ (l : List α) (i : Nat), (l.map f).getD i (f d) = f (l.getD i d) := by
  intro l
  induction l with
  | nil => intro i; simp
  | cons x xs ih =>
    intro i
    cases i with
    | zero => rfl
    | succ j =>
      simp only [List.map_cons, List.getD_cons_succ]
      exact ih j

/-- Default generation config (used only as `getD` default; request indices
are always in range). -/
def dfltCfg : GenerationConfig := ⟨[], 0⟩

theorem initReq_dflt : initReq dfltCfg = dfltReq := rfl

/-- Config of request `i` in a batch of `n` requests. -/
def cfgOf (cfg : ConfigArg) (n : Nat) (i : Nat) : GenerationConfig :=
  (broadcast cfg n).getD i dfltCfg

/-- The stream events delivered to request `i` during a finished `generate`
call that consumed `k` steps of `trace` over a batch of `n` requests. -/
def reqEvents (trace : List (List StreamEvent)) (k n i : Nat) :
    List StreamEvent :=
  evsFor n i ((trace.take k).flatten)

/-- The final full decoded text of a request, from the events it was
delivered: the decode of its complete token sequence. -/
def reqFullText (tokStr : Nat → Txt) (evs : List StreamEvent) : Txt :=
  decodeToks tokStr ((evs.map StreamEvent.toks).flatten)

def isAddOp : EngineOp → Bool
  | .addReq .. => true
  | _ => false

theorem countP_replicate {α : Type} (p : α → Bool) (a : α) :
    ∀ n, (List.replicate n a).countP p = if p a then n else 0 := by
  intro n
  induction n with
  | zero => simp
  | succ m ih =>
    rw [List.replicate_succ, List.countP_cons, ih]
    by_cases hp : p a
    · simp [hp]
    · simp [hp]

theorem countP_addOps (ps : List Prompt) (gs : List GenerationConfig) :
    (addOps ps gs).countP isAddOp = (ps.zip gs).length := by
  rw [addOps, List.countP_map]
  have : ∀ l : List (Nat × (Prompt × GenerationConfig)),
      l.countP (fun x => isAddOp (.addReq x.1 x.2.1 x.2.2)) = l.length := by
    intro l
    induction l with
    | nil => rfl
    | cons x xs ih =>
      rw [List.countP_cons, ih]
      simp [isAddOp]
  rw [show (isAddOp ∘ fun x : Nat × (Prompt × GenerationConfig) =>
      EngineOp.addReq x.1 x.2.1 x.2.2)
      = fun x : Nat × (Prompt × GenerationConfig) =>
        isAddOp (.addReq x.1 x.2.1 x.2.2) from rfl, this]
  simp

/-- The per-request summary of a finished `generate` call: request `i`'s
final state results from running its own events on its fresh state, its
result slot holds that state's accumulated output, and its full text is
the decode of its events' tokens. -/
theorem generate_ok_request {tokStr : Nat → Txt} {c₀ : CbSlot}
    {prompts : PromptsArg} {cfg : ConfigArg}
    {trace : List (List StreamEvent)} {res : List Txt} {slot : CbSlot}
    {ops : List EngineOp} {sts : List ReqState} {k : Nat}
    (hok : Engine.generate tokStr c₀ prompts cfg trace
        = .ok res slot ops sts k)
    {i : Nat} (hi : i < (promote prompts).length) :
    res.length = (promote prompts).length ∧
    reqRun tokStr (initReq (cfgOf cfg (promote prompts).length i))
        (reqEvents trace k (promote prompts).length i)
      = .ok (sts.getD i dfltReq) ∧
    res.getD i [] = (sts.getD i dfltReq).output ∧
    reqText tokStr (sts.getD i dfltReq)
      = reqFullText tokStr (reqEvents trace k (promote prompts).length i) := by
  obtain ⟨-, hcase⟩ := generate_ok_cases hok
  rcases hcase with ⟨hempty, -, -, -, -⟩ | ⟨hne, hlen, ⟨cnt, hloop⟩, hres, -⟩
  · rw [hempty] at hi
    simp at hi
  · have hpe := runLoop_route hloop
    obtain ⟨hlen2, hroute⟩ := processEvents_route hpe
    have hmaplen :
        ((broadcast cfg (promote prompts).length).map initReq).length
          = (promote prompts).length := by
      rw [List.length_map, hlen]
    have hrun := hroute i (by rw [hmaplen]; exact hi)
    rw [hmaplen] at hrun
    rw [← initReq_dflt, getD_map initReq dfltCfg] at hrun
    have hrun2 : reqRun tokStr
        (initReq (cfgOf cfg (promote prompts).length i))
        (reqEvents trace k (promote prompts).length i)
        = .ok (sts.getD i dfltReq) := hrun
    have hstslen : sts.length = (promote prompts).length := by
      rw [hlen2, hmaplen]
    refine ⟨by rw [hres, List.length_map, hstslen], hrun2, ?_, ?_⟩
    · rw [hres]
      have : ([] : Txt) = ReqState.output dfltReq := rfl
      rw [this, getD_map ReqState.output dfltReq]
    · have hhist := reqRun_hist hrun2
      rw [reqText, reqFullText, hhist]
      have : (initReq (cfgOf cfg (promote prompts).length i)).hist = [] :=
        rfl
      rw [this, List.nil_append]

/-! ## Concrete instances used by counterexamples and witnesses -/

/-- A concrete tokenizer decode map for the concrete runs below. -/
def tkC : Nat → Txt := fun n =>
  match n with
  | 0 => ['a', 'b']
  | 1 => ['c']
  | 2 => ['a']
  | _ => ['z']

def gStop : GenerationConfig := ⟨[['a']], 0⟩
def gOv : GenerationConfig := ⟨[['a', 'b', 'c'], ['b']], 0⟩
def gB : GenerationConfig := ⟨[['b']], 0⟩
def evFin : StreamEvent := ⟨0, [0], some 3⟩
def evStop : StreamEvent := ⟨0, [2], none⟩

def stDone : ReqState :=
  { hist := [0], closed := true, handler := ⟨[], [], false⟩,
    output := ['a', 'b'], finishReason := some (.engine 3) }

def stTrig : ReqState :=
  { hist := [2], closed := false, handler := ⟨[['a']], [], true⟩,
    output := [], finishReason := some .stop }

def stTrig2 : ReqState :=
  { hist := [2, 2], closed := false, handler := ⟨[['a']], [], true⟩,
    output := [], finishReason := some .stop }

def cxOkOps : List EngineOp :=
  [.getCb, .setCb .batchScoped, .addReq 0 (.text ['h']) dfltCfg, .stepOp,
   .setCb (.outer 0)]

def cxFaultOps : List EngineOp :=
  [.getCb, .setCb .batchScoped, .addReq 0 (.text ['h']) dfltCfg, .stepOp]

instance {ε α : Type} [DecidableEq ε] [DecidableEq α] :
    DecidableEq (Except ε α) := fun a b =>
  match a, b with
  | .error x, .error y =>
    if h : x = y then .isTrue (by rw [h]) else .isFalse (by simp [h])
  | .error _, .ok _ => .isFalse (by simp)
  | .ok _, .error _ => .isFalse (by simp)
  | .ok x, .ok y =>
    if h : x = y then .isTrue (by rw [h]) else .isFalse (by simp [h])

/-! ## The claims -/

/-- Claim C9 (confirmed): `generate` on an empty prompt list returns an
empty result list with no engine interaction at all: no callback read or
install, no `add_request`, no `step` (empty operation log), and the
callback slot value is untouched. -/
theorem C9_empty_prompts (tokStr : Nat → Txt) (c₀ : CbSlot)
    (cfg : ConfigArg) (trace : List (List StreamEvent)) :
    Engine.generate tokStr c₀ (.ofList []) cfg trace = .ok [] c₀ [] [] 0 :=
  generate_empty_input tokStr c₀ cfg trace

/-- Claim C4 (corrected): for a *nonempty* (promoted) prompt list, a config
list whose length differs from the prompt count faults with the assertion
error before any engine interaction: the operation log is empty (no
`add_request`, no `step`, no callback read or write) and the callback slot
is untouched.  (The original claim fails on the empty prompt list, which
returns `[]` before the length check — see the counterexample.) -/
theorem C4_config_mismatch (tokStr : Nat → Txt) (c₀ : CbSlot)
    (prompts : PromptsArg) (l : List GenerationConfig)
    (trace : List (List StreamEvent))
    (hne : promote prompts ≠ [])
    (hlen : l.length ≠ (promote prompts).length) :
    Engine.generate tokStr c₀ prompts (.many l) trace
      = .fault .configMismatch c₀ [] :=
  generate_mismatch hne hlen

/-- Claim C4, counterexample to the original claim: two generation configs
for zero prompts is a count mismatch, yet `generate` returns `ok []`
without any fault (the empty-input early return precedes the length
assertion). -/
theorem C4_counterexample :
    Engine.generate tkC (.outer 0) (.ofList [])
        (.many [dfltCfg, dfltCfg]) [] = .ok [] (.outer 0) [] [] 0 ∧
    [dfltCfg, dfltCfg].length ≠ (promote (.ofList [])).length :=
  ⟨rfl, by decide⟩

/-- Claim C4, witness: a concrete mismatched call (one prompt, zero
configs) faults before any engine interaction. -/
theorem C4_witness :
    Engine.generate tkC (.outer 0) (.str ['h']) (.many []) []
      = .fault .configMismatch (.outer 0) [] :=
  C4_config_mismatch tkC (.outer 0) (.str ['h']) [] [] (by decide)
    (by decide)

/-- Claim C1 (corrected): the callback slot after `generate` equals the
pre-call callback on normal return, and also on the config-mismatch
precondition fault (which fires before the slot is read or written); but
on a fault raised from a callback delivery inside the submission/step
phase, the batch-scoped callback remains installed — there is no
`try/finally` around the restore, so restoration is **not** guaranteed on
every exit path. -/
theorem C1_callback_hygiene (tokStr : Nat → Txt) (c₀ : CbSlot)
    (prompts : PromptsArg) (cfg : ConfigArg)
    (trace : List (List StreamEvent)) :
    (∀ res slot ops sts k,
        Engine.generate tokStr c₀ prompts cfg trace
          = .ok res slot ops sts k → slot = c₀) ∧
    (∀ f slot ops,
        Engine.generate tokStr c₀ prompts cfg trace = .fault f slot ops →
        (slot = c₀ ∧ f = .configMismatch ∧ ops = []) ∨
          slot = .batchScoped) := by
  constructor
  · intro res slot ops sts k h
    exact (generate_ok_cases h).1
  · intro f slot ops h
    rcases generate_fault_cases h with ⟨hf, hs, ho, -, -⟩ | ⟨hs, -⟩
    · exact Or.inl ⟨hs, hf, ho⟩
    · exact Or.inr hs

/-- Claim C1, counterexample to the original claim: an out-of-range event
id faults inside the step loop and `generate` propagates the fault with
the batch-scoped callback still installed — different from the pre-call
callback `.outer 0`. -/
theorem C1_counterexample :
    Engine.generate tkC (.outer 0) (.str ['h']) (.one dfltCfg)
        [[⟨1, [0], some 3⟩]]
      = .fault .indexError .batchScoped cxFaultOps ∧
    CbSlot.batchScoped ≠ CbSlot.outer 0 :=
  ⟨by decide, by decide⟩

/-- Claim C1, witness: the amended theorem applied to a concrete normal
return and to a concrete in-loop fault. -/
theorem C1_witness :
    (CbSlot.outer 0 : CbSlot) = .outer 0 ∧
    ((CbSlot.batchScoped = CbSlot.outer 0 ∧
        Fault.indexError = .configMismatch ∧ cxFaultOps = []) ∨
      CbSlot.batchScoped = CbSlot.batchScoped) :=
  ⟨(C1_callback_hygiene tkC (.outer 0) (.str ['h']) (.one dfltCfg)
        [[evFin]]).1
      [['a', 'b']] (.outer 0) cxOkOps [stDone] 1 (by decide),
   (C1_callback_hygiene tkC (.outer 0) (.str ['h']) (.one dfltCfg)
        [[⟨1, [0], some 3⟩]]).2
      .indexError .batchScoped cxFaultOps (by decide)⟩

/-- Claim C7 (corrected): an event id `≥ N` or `< -N` makes the callback
fault with `IndexError` before touching any request state; but a negative
id in `-N..-1` is *not* rejected: Python list subscripting routes it to
request `N + id`, exactly as if that in-range id had been sent. -/
theorem C7_id_range_check (tokStr : Nat → Txt) (states : List ReqState)
    (count : Nat) (e : StreamEvent) :
    ((states.length : Int) ≤ e.rid ∨ e.rid < -(states.length : Int) →
      processEvent tokStr (states, count) e = .error .indexError) ∧
    (-(states.length : Int) ≤ e.rid → e.rid < 0 →
      processEvent tokStr (states, count) e
        = processEvent tokStr (states, count)
            { e with rid := (states.length : Int) + e.rid }) := by
  constructor
  · intro h
    have hpi : pyIndex states.length e.rid = none := by
      rcases h with h | h
      · rw [pyIndex, if_neg (by omega), if_neg (by omega)]
      · rw [pyIndex, if_neg (by omega), if_neg (by omega)]
    rw [processEvent]
    simp only [hpi]
  · intro h1 h2
    have hpi : pyIndex states.length e.rid
        = some ((states.length : Int) + e.rid).toNat := by
      rw [pyIndex, if_neg (by omega), if_pos (by omega)]
    have hpi2 : pyIndex states.length ((states.length : Int) + e.rid)
        = some ((states.length : Int) + e.rid).toNat := by
      rw [pyIndex, if_pos (by omega)]
    have hstep : ∀ st, reqStep tokStr st
        { e with rid := (states.length : Int) + e.rid }
        = reqStep tokStr st e := by
      intro st
      cases e
      rfl
    rw [processEvent, processEvent]
    simp only [hpi, hpi2, hstep]

/-- Claim C7, counterexample to the original claim: the event id `-1` is
outside `0..N-1`, yet the callback does not fault: it processes the event
against request `N - 1` (here request `0` of a batch of one). -/
theorem C7_counterexample :
    processEvent tkC ([initReq dfltCfg], 0) ⟨-1, [0], some 3⟩
      = .ok ([stDone], 1) ∧ (-1 : Int) < 0 :=
  ⟨by decide, by decide⟩

/-- Claim C7, witness: the amended theorem applied to a concrete
out-of-range id (faults) and to a concrete negative id (routed to
`N + id`). -/
theorem C7_witness :
    processEvent tkC ([initReq dfltCfg], 0) ⟨5, [0], some 3⟩
      = .error .indexError ∧
    processEvent tkC ([initReq dfltCfg], 0) ⟨-1, [0], some 3⟩
      = processEvent tkC ([initReq dfltCfg], 0)
          { rid := (1 : Int) + -1, toks := [0], reason := some 3 } :=
  ⟨(C7_id_range_check tkC [initReq dfltCfg] 0 ⟨5, [0], some 3⟩).1
      (by decide),
   (C7_id_range_check tkC [initReq dfltCfg] 0 ⟨-1, [0], some 3⟩).2
      (by decide) (by decide)⟩

/-- Claim C8 (corrected): an event for a request whose engine finish reason
was already processed faults fatally (its detokenizer is closed and
`TextStreamer.put` after `finish()` is a fatal error); but an event for a
request that is `Done` only through a stop-string trigger is *not*
rejected: it is processed without fault, emits nothing (the triggered
matcher discards everything), and increments the finished counter again. -/
theorem C8_done_requests (tokStr : Nat → Txt) (st : ReqState)
    (e : StreamEvent) :
    (st.closed = true → reqStep tokStr st e = .error .streamerReuse) ∧
    (st.closed = false → st.handler.stop_triggered = true →
      reqStep tokStr st e
        = .ok ({ st with
                 hist := st.hist ++ e.toks
                 finishReason := some .stop }, some .stop)) := by
  constructor
  · intro hcl
    exact reqStep_closed hcl
  · intro hcl htr
    have hput := put_of_trig htr (evDelta tokStr e)
    have htrig2 :
        (st.handler.put (evDelta tokStr e)).2.stop_triggered = true := by
      rw [hput]; exact htr
    rw [reqStep_trig hcl htrig2]
    simp only [hput, List.append_nil, hcl]

/-- Claim C8, counterexample to the original claim: a request reaches
`Done` via a stop trigger (reachable state, shown by the first conjunct),
and a further event for it is accepted — `reqStep` returns `ok`, not a
fault, and reports yet another finished signal. -/
theorem C8_counterexample :
    processEvents tkC [initReq gStop] 0 [evStop] = .ok ([stTrig], 1) ∧
    stTrig.finishReason = some .stop ∧
    reqStep tkC stTrig evStop = .ok (stTrig2, some .stop) :=
  ⟨by decide, by decide, by decide⟩

/-- Claim C8, witness: the amended theorem applied to a concrete closed
request (faults) and a concrete stop-triggered request (accepted). -/
theorem C8_witness :
    reqStep tkC stDone evStop = .error .streamerReuse ∧
    reqStep tkC stTrig evStop
      = .ok ({ stTrig with
               hist := stTrig.hist ++ evStop.toks
               finishReason := some .stop }, some .stop) :=
  ⟨(C8_done_requests tkC stDone evStop).1 (by decide),
   (C8_done_requests tkC stTrig evStop).2 (by decide) (by decide)⟩

/-- Claim C2 (corrected): the finished-request counter is monotonically
non-decreasing across events and callback deliveries, and the driving loop
exits exactly when the counter equals the batch size N.  Under the spec's
environment assumption that `Done` requests receive no further events, the
counter equals the number of `Done` requests after every delivery, so it
never exceeds N and each request contributes at most one increment.
Without that assumption the bound fails — a request `Done` by stop trigger
increments the counter again on every further event (see the
counterexample). -/
theorem C2_termination_accounting (tokStr : Nat → Txt) :
    (∀ (states states' : List ReqState) (count count' : Nat)
        (evs : List StreamEvent),
        processEvents tokStr states count evs = .ok (states', count') →
        count ≤ count') ∧
    (∀ (n : Nat) (trace : List (List StreamEvent))
        (states s' : List ReqState) (count c' k : Nat),
        runLoop tokStr n states count trace = .finished s' c' k →
        c' = n) ∧
    (∀ (states states' : List ReqState) (count count' : Nat)
        (evs : List StreamEvent),
        count = doneCount states →
        respectsDone tokStr states evs = true →
        processEvents tokStr states count evs = .ok (states', count') →
        count' = doneCount states' ∧ count' ≤ states'.length ∧
          states'.length = states.length) := by
  refine ⟨?_, ?_, ?_⟩
  · intro states states' count count' evs h
    exact processEvents_mono h
  · intro n trace states s' count c' k h
    exact runLoop_finished_count h
  · intro states states' count count' evs hc hresp h
    obtain ⟨h1, h2⟩ := processEvents_bound hc hresp h
    exact ⟨h1, by rw [h1]; exact doneCount_le _, h2⟩

/-- Claim C2, counterexample to the original claim: one request (N = 1),
`Done` by stop trigger on the first event; the second event for the same
request increments the counter again, so it reaches 2 > N — the counter is
not bounded by N and a single request contributed two increments. -/
theorem C2_counterexample :
    processEvents tkC [initReq gStop] 0 [evStop, evStop]
      = .ok ([stTrig2], 2) ∧
    [initReq gStop].length < 2 :=
  ⟨by decide, by decide⟩

/-- Claim C2, witness: the amended theorem applied to a concrete delivery
finishing one request of one. -/
theorem C2_witness :
    (0 : Nat) ≤ 1 ∧ (1 : Nat) = 1 ∧
    ((1 : Nat) = doneCount [stDone] ∧ 1 ≤ [stDone].length ∧
      [stDone].length = [initReq dfltCfg].length) :=
  ⟨(C2_termination_accounting tkC).1 [initReq dfltCfg] [stDone] 0 1 [evFin]
      (by decide),
   (C2_termination_accounting tkC).2.1 1 [[evFin]] [initReq dfltCfg]
      [stDone] 0 1 1 (by decide),
   (C2_termination_accounting tkC).2.2 [initReq dfltCfg] [stDone] 0 1
      [evFin] (by decide) (by decide) (by decide)⟩

/-- Claim C10 (confirmed): a bare string is promoted to a one-element
batch; a flat nonempty list whose first element is an int is one
pre-tokenized prompt, promoted to a one-element batch; and on every normal
return the result-list length and the number of `add_request` calls both
equal the promoted prompt count. -/
theorem C10_prompt_promotion (tokStr : Nat → Txt) (c₀ : CbSlot)
    (cfg : ConfigArg) (trace : List (List StreamEvent)) :
    (∀ s, promote (.str s) = [.text s]) ∧
    (∀ n0 rest, promote (.ofList (.pint n0 :: rest))
        = [.tokens ((PromptElem.pint n0 :: rest).filterMap elemTok)]) ∧
    (∀ prompts res slot ops sts k,
        Engine.generate tokStr c₀ prompts cfg trace
          = .ok res slot ops sts k →
        res.length = (promote prompts).length ∧
        ops.countP isAddOp = (promote prompts).length) := by
  refine ⟨fun s => rfl, fun n0 rest => rfl, ?_⟩
  intro prompts res slot ops sts k h
  obtain ⟨-, hcase⟩ := generate_ok_cases h
  rcases hcase with ⟨hempty, hres, hops, -, -⟩ |
    ⟨hne, hlen, ⟨cnt, hloop⟩, hres, hops⟩
  · rw [hempty, hres, hops]
    exact ⟨rfl, rfl⟩
  · constructor
    · have hpe := runLoop_route hloop
      obtain ⟨hlen2, -⟩ := processEvents_route hpe
      rw [hres, List.length_map, hlen2, List.length_map, hlen]
    · rw [hops]
      simp [List.countP_cons, List.countP_append, countP_addOps,
        countP_replicate, isAddOp, List.length_zip, hlen]

/-- Claim C10, witness: a concrete single-string call submits exactly one
request and returns one result. -/
theorem C10_witness :
    ([['a', 'b']] : List Txt).length = (promote (.str ['h'])).length ∧
    cxOkOps.countP isAddOp = (promote (.str ['h'])).length :=
  (C10_prompt_promotion tkC (.outer 0) (.one dfltCfg) [[evFin]]).2.2
    (.str ['h']) [['a', 'b']] (.outer 0) cxOkOps [stDone] 1 (by decide)

/-- Claim C5 (confirmed): a finished batch returns one result per promoted
prompt, in submission order 0..N-1: result `i` is exactly the accumulated
output of running request `i`'s own event subsequence (in delivery order)
on its fresh per-request state — independent of how events of different
requests were interleaved across callback deliveries. -/
theorem C5_order_preservation (tokStr : Nat → Txt) (c₀ : CbSlot)
    (prompts : PromptsArg) (cfg : ConfigArg)
    (trace : List (List StreamEvent)) (res : List Txt) (slot : CbSlot)
    (ops : List EngineOp) (sts : List ReqState) (k : Nat)
    (hok : Engine.generate tokStr c₀ prompts cfg trace
        = .ok res slot ops sts k) :
    res.length = (promote prompts).length ∧
    ∀ i, i < (promote prompts).length →
      ∃ st', reqRun tokStr (initReq (cfgOf cfg (promote prompts).length i))
          (reqEvents trace k (promote prompts).length i) = .ok st' ∧
        res.getD i [] = st'.output := by
  constructor
  · obtain ⟨-, hcase⟩ := generate_ok_cases hok
    rcases hcase with ⟨hempty, hres, -, -, -⟩ |
      ⟨hne, hlen, ⟨cnt, hloop⟩, hres, -⟩
    · rw [hempty, hres]
      rfl
    · have hpe := runLoop_route hloop
      obtain ⟨hlen2, -⟩ := processEvents_route hpe
      rw [hres, List.length_map, hlen2, List.length_map, hlen]
  · intro i hi
    obtain ⟨-, hrun, hres, -⟩ := generate_ok_request hok hi
    exact ⟨sts.getD i dfltReq, hrun, hres⟩

def c5Ops : List EngineOp :=
  [.getCb, .setCb .batchScoped, .addReq 0 (.text ['h']) dfltCfg,
   .addReq 1 (.text ['i']) dfltCfg, .stepOp, .stepOp, .setCb (.outer 0)]

def c5Sts : List ReqState :=
  [{ hist := [0], closed := true, handler := ⟨[], [], false⟩,
     output := ['a', 'b'], finishReason := some (.engine 3) },
   { hist := [1], closed := true, handler := ⟨[], [], false⟩,
     output := ['c'], finishReason := some (.engine 2) }]

/-- Claim C5, witness: two prompts whose finish events arrive in reverse
order (request 1 finishes on step 1, request 0 on step 2); the result list
is still ordered 0, 1. -/
theorem C5_witness :
    ([['a', 'b'], ['c']] : List Txt).length
      = (promote (.ofList [.pstr ['h'], .pstr ['i']])).length ∧
    (∃ st', reqRun tkC
        (initReq (cfgOf (.one dfltCfg)
          (promote (.ofList [.pstr ['h'], .pstr ['i']])).length 0))
        (reqEvents [[⟨1, [1], some 2⟩], [⟨0, [0], some 3⟩]] 2
          (promote (.ofList [.pstr ['h'], .pstr ['i']])).length 0)
        = .ok st' ∧
      ([['a', 'b'], ['c']] : List Txt).getD 0 [] = st'.output) :=
  have h := C5_order_preservation tkC (.outer 0)
    (.ofList [.pstr ['h'], .pstr ['i']]) (.one dfltCfg)
    [[⟨1, [1], some 2⟩], [⟨0, [0], some 3⟩]]
    [['a', 'b'], ['c']] (.outer 0) c5Ops c5Sts 2 (by decide)
  ⟨h.1, h.2 0 (by decide)⟩

/-- Claim C6 (confirmed): a request configured with an empty stop-string
set that ends with a recorded finish reason passes through: its result is
the full decoded text of its complete token sequence, and the recorded
reason is the engine's original (non-null) reason delivered in one of its
events — never the forced `"stop"`. -/
theorem C6_pass_through (tokStr : Nat → Txt) (c₀ : CbSlot)
    (prompts : PromptsArg) (cfg : ConfigArg)
    (trace : List (List StreamEvent)) (res : List Txt) (slot : CbSlot)
    (ops : List EngineOp) (sts : List ReqState) (k i : Nat) (fr : FReason)
    (hok : Engine.generate tokStr c₀ prompts cfg trace
        = .ok res slot ops sts k)
    (hi : i < (promote prompts).length)
    (hS : (cfgOf cfg (promote prompts).length i).stop_strs = [])
    (hfin : (sts.getD i dfltReq).finishReason = some fr) :
    res.getD i []
      = reqFullText tokStr (reqEvents trace k (promote prompts).length i) ∧
    fr ≠ .stop ∧
    ∃ r, fr = .engine r ∧
      ∃ e ∈ reqEvents trace k (promote prompts).length i,
        e.reason = some r := by
  obtain ⟨-, hrun, hres, hT⟩ := generate_ok_request hok hi
  have rinv := reqRun_rinv
    (rinv_init tokStr (cfgOf cfg (promote prompts).length i)) hrun
  rcases rinv with ⟨-, hfr, -⟩ | ⟨-, -, -, -, k', -, hmk, -⟩ |
    ⟨-, ⟨r, hr⟩, -, hout, -⟩
  · rw [hfr] at hfin
    exact absurd hfin (by simp)
  · rw [hS, matchesAt_nil] at hmk
    exact absurd hmk (by simp)
  · rw [hr] at hfin
    injection hfin with hfin
    subst hfin
    refine ⟨by rw [hres, hout, hT], by simp, r, rfl, ?_⟩
    rcases reqRun_engine_reason hrun hr with h0 | h1
    · exact absurd h0 (by simp [initReq])
    · exact h1

/-- Claim C6, witness: a request with no stop strings and engine finish
reason 3 returns its full decoded text and records `engine 3`. -/
theorem C6_witness :
    ([['a', 'b']] : List Txt).getD 0 []
      = reqFullText tkC (reqEvents [[evFin]] 1
          (promote (.str ['h'])).length 0) ∧
    FReason.engine 3 ≠ .stop ∧
    ∃ r, FReason.engine 3 = .engine r ∧
      ∃ e ∈ reqEvents [[evFin]] 1 (promote (.str ['h'])).length 0,
        e.reason = some r :=
  C6_pass_through tkC (.outer 0) (.str ['h']) (.one dfltCfg) [[evFin]]
    [['a', 'b']] (.outer 0) cxOkOps [stDone] 1 0 (.engine 3) (by decide)
    (by decide) (by decide) (by decide)

/-- Claim C3 (corrected): if a request's final full decoded text `T`
contains an occurrence of one of its stop strings (first occurrence at
offset `k0`), then the request finishes with forced reason `"stop"` and
its result equals `T[0:k']` for the start `k'` of *an* occurrence of a
stop string in `T`, with `k0 ≤ k'`.  The original claim's `k' = k0` fails
when stop strings overlap: a shorter stop string can complete inside a
delivered chunk while an earlier-starting longer one is still only a
partial match, and the matcher truncates at the completed one (see the
counterexample). -/
theorem C3_stop_truncation (tokStr : Nat → Txt) (c₀ : CbSlot)
    (prompts : PromptsArg) (cfg : ConfigArg)
    (trace : List (List StreamEvent)) (res : List Txt) (slot : CbSlot)
    (ops : List EngineOp) (sts : List ReqState) (k i k0 : Nat)
    (hok : Engine.generate tokStr c₀ prompts cfg trace
        = .ok res slot ops sts k)
    (hi : i < (promote prompts).length)
    (hfo : firstOccur (cfgOf cfg (promote prompts).length i).stop_strs
        (reqFullText tokStr (reqEvents trace k (promote prompts).length i))
        = some k0) :
    (sts.getD i dfltReq).finishReason = some .stop ∧
    ∃ k', k0 ≤ k' ∧
      matchesAt (cfgOf cfg (promote prompts).length i).stop_strs
        (reqFullText tokStr
          (reqEvents trace k (promote prompts).length i)) k' = true ∧
      res.getD i []
        = (reqFullText tokStr
            (reqEvents trace k (promote prompts).length i)).take k' := by
  obtain ⟨-, hrun, hres, hT⟩ := generate_ok_request hok hi
  have rinv := reqRun_rinv
    (rinv_init tokStr (cfgOf cfg (promote prompts).length i)) hrun
  rcases rinv with ⟨-, -, hinv⟩ | ⟨-, hfr, -, -, k', hk', hmk, hout⟩ |
    ⟨-, -, -, -, hnoOcc⟩
  · exfalso
    have hnone := firstOccur_none_of (t :=
      reqFullText tokStr (reqEvents trace k (promote prompts).length i))
      (fun m => by rw [← hT]; exact hinv.noOcc m)
    rw [hnone] at hfo
    exact absurd hfo (by simp)
  · rw [hT] at hmk hout
    refine ⟨hfr, k', ?_, hmk, by rw [hres, hout]⟩
    by_contra hc
    have := (firstOccur_some hfo).2 k' (by omega)
    rw [this] at hmk
    exact absurd hmk (by simp)
  · exfalso
    have hnone := firstOccur_none_of (t :=
      reqFullText tokStr (reqEvents trace k (promote prompts).length i))
      (fun m => by rw [← hT]; exact hnoOcc m)
    rw [hnone] at hfo
    exact absurd hfo (by simp)

def cxOvOps : List EngineOp :=
  [.getCb, .setCb .batchScoped, .addReq 0 (.text ['h']) gOv,
   .addReq 1 (.text ['i']) gOv, .stepOp, .stepOp, .setCb (.outer 0)]

def cxOvSts : List ReqState :=
  [{ hist := [0, 1], closed := false,
     handler := ⟨[['a', 'b', 'c'], ['b']], [], true⟩, output := ['a'],
     finishReason := some .stop },
   { hist := [], closed := false,
     handler := ⟨[['a', 'b', 'c'], ['b']], [], false⟩, output := [],
     finishReason := none }]

/-- Claim C3, counterexample to the original claim: stop strings
`{"abc", "b"}`, request 0's text `"abc"` delivered as `"ab"` then `"c"`.
The first occurrence of a stop string in `"abc"` starts at offset 0
(`"abc"` itself), so the original claim demands output `""`; but `"b"`
completes inside the first chunk while `"abc"` is still a partial match,
the matcher truncates at `"b"`, and the returned output is `"a"`. -/
theorem C3_counterexample :
    Engine.generate tkC (.outer 0) (.ofList [.pstr ['h'], .pstr ['i']])
        (.one gOv) [[⟨0, [0], none⟩], [⟨0, [1], some 7⟩]]
      = .ok [['a'], []] (.outer 0) cxOvOps cxOvSts 2 ∧
    firstOccur gOv.stop_strs
        (reqFullText tkC
          (reqEvents [[⟨0, [0], none⟩], [⟨0, [1], some 7⟩]] 2 2 0))
      = some 0 ∧
    ([['a'], []] : List Txt).getD 0 []
      ≠ (reqFullText tkC
          (reqEvents [[⟨0, [0], none⟩], [⟨0, [1], some 7⟩]] 2 2 0)).take 0 :=
  ⟨by decide, by decide, by decide⟩

/-- Claim C3, witness: a single stop string `"b"` in text `"ab"`: the
request stops with output `"a" = T[0:1]` at the occurrence offset 1. -/
theorem C3_witness :
    (([{ hist := [0], closed := false, handler := ⟨[['b']], [], true⟩,
         output := ['a'], finishReason := some FReason.stop }] :
        List ReqState).getD 0 dfltReq).finishReason = some .stop ∧
    ∃ k', 1 ≤ k' ∧
      matchesAt (cfgOf (.one gB) (promote (.str ['h'])).length 0).stop_strs
        (reqFullText tkC
          (reqEvents [[⟨0, [0], none⟩]] 1
            (promote (.str ['h'])).length 0)) k' = true ∧
      ([['a']] : List Txt).getD 0 []
        = (reqFullText tkC
            (reqEvents [[⟨0, [0], none⟩]] 1
              (promote (.str ['h'])).length 0)).take k' :=
  C3_stop_truncation tkC (.outer 0) (.str ['h']) (.one gB)
    [[⟨0, [0], none⟩]] [['a']] (.outer 0)
    [.getCb, .setCb .batchScoped, .addReq 0 (.text ['h']) gB, .stepOp,
     .setCb (.outer 0)]
    [{ hist := [0], closed := false, handler := ⟨[['b']], [], true⟩,
       output := ['a'], finishReason := some .stop }]
    1 0 1 (by decide) (by decide) (by decide)
